import Mathlib

/-!
Verification of the YewPar tree-search skeleton library.

This file embeds, in Lean, the parts of the YewPar sources that the
specification talks about:

* the step order of the two `search` drivers (`Random::search` and
  `BnB::Indexed::search`) and the event order inside their subtree task
  bodies (`Random::subtreeTask`, `searchChildTask`);
* the Indexed skeleton's `expand` loop with its prune / prune-level /
  incumbent-update logic;
* the Random skeleton's iterative stack expansion with its probabilistic
  spawn block;
* `getStartingNode`, which rebuilds a node from an index path;
* the maxclique application's `colour_class_order`, `GenNode::next`,
  `GenNode::nth` and `upperBound`;
* the `PriorityOrderedPolicy` work-stealing policy.

Trees are modelled as finitely-branching rose trees; a node generator for
a node is the list of its children; machine integers that never overflow
in the modelled code are `Nat`/`Int`.
-/

set_option maxHeartbeats 1000000

namespace YewParVerif

/-! ### Rose-tree model of the user's search space

A search-tree node carries its objective value (`hpx::util::get<1>` of the
node tuple) and the lazily generated children. The user `NodeGenerator`
for a node is modelled by the list of children it would emit, in emission
order. -/

inductive MTree : Type where
  | node (obj : Int) (children : List MTree)
deriving Repr

def MTree.obj : MTree → Int
  | .node o _ => o

def MTree.children : MTree → List MTree
  | .node _ cs => cs

mutual
def MTree.beq : MTree → MTree → Bool
  | .node o1 cs1, .node o2 cs2 => o1 == o2 && MTree.beqL cs1 cs2
def MTree.beqL : List MTree → List MTree → Bool
  | [], [] => true
  | t :: ts, u :: us => MTree.beq t u && MTree.beqL ts us
  | _, _ => false
end

mutual
theorem MTree.eq_of_beq : ∀ {t u : MTree}, MTree.beq t u = true → t = u
  | .node o1 cs1, .node o2 cs2, h => by
    rw [MTree.beq, Bool.and_eq_true, beq_iff_eq] at h
    rw [h.1, MTree.eqL_of_beqL h.2]
theorem MTree.eqL_of_beqL : ∀ {ts us : List MTree}, MTree.beqL ts us = true → ts = us
  | [], [], _ => rfl
  | t :: ts, u :: us, h => by
    rw [MTree.beqL, Bool.and_eq_true] at h
    rw [MTree.eq_of_beq h.1, MTree.eqL_of_beqL h.2]
end

mutual
theorem MTree.beq_refl : ∀ t : MTree, MTree.beq t t = true
  | .node o cs => by rw [MTree.beq, Bool.and_eq_true, beq_iff_eq]
                     exact ⟨rfl, MTree.beqL_refl cs⟩
theorem MTree.beqL_refl : ∀ ts : List MTree, MTree.beqL ts ts = true
  | [] => rfl
  | t :: ts => by rw [MTree.beqL, Bool.and_eq_true]
                  exact ⟨MTree.beq_refl t, MTree.beqL_refl ts⟩
end

instance : DecidableEq MTree := fun t u =>
  decidable_of_iff (MTree.beq t u = true)
    ⟨MTree.eq_of_beq, fun h => h ▸ MTree.beq_refl t⟩

mutual
def tsize : MTree → Nat
  | .node _ cs => 1 + tsizeL cs
def tsizeL : List MTree → Nat
  | [] => 0
  | t :: ts => tsize t + tsizeL ts
end

mutual
def allNodes : MTree → Multiset MTree
  | .node o cs => MTree.node o cs ::ₘ allNodesL cs
def allNodesL : List MTree → Multiset MTree
  | [] => 0
  | t :: ts => allNodes t + allNodesL ts
end

mutual
/-- Multiset of the nodes of `t` that lie at most `d` levels below `t`
(`t` itself is level 0). -/
def nodesUpTo : Nat → MTree → Multiset MTree
  | 0, t => {t}
  | d + 1, .node o cs => MTree.node o cs ::ₘ nodesUpToL d cs
/-- List version of `nodesUpTo`, summed over a list of sibling trees. -/
def nodesUpToL : Nat → List MTree → Multiset MTree
  | _, [] => 0
  | d, t :: ts => nodesUpTo d t + nodesUpToL d ts
end

/-! ### Step traces of the two search drivers

`SearchStep` names the externally visible phases of a `search` call.
`randomSearchTrace` transcribes `Random::search` (BasicRandom skeleton),
`indexedSearchTrace` transcribes `BnB::Indexed::search`; each list holds
the phases in source order. -/

inductive SearchStep : Type where
  | initRegistryB      -- broadcast of registry initialisation
  | createIncumbentS   -- construction of the incumbent component
  | installIncumbentS  -- installing the initial bound / initial incumbent
  | initPolicyS        -- policy initialisation (on every locality)
  | startSchedulersB   -- starting the work-stealing schedulers
  | submitRootAndWait  -- submitting the root task and blocking on its promise
  | stopSchedulersB    -- broadcast of scheduler shutdown
  | readResultS        -- reading the incumbent / combining enumerators
deriving DecidableEq, Repr

/-- Phase order of `Random::search`; `optOrDec` tells whether the skeleton
is instantiated in optimisation or decision mode (the incumbent phases
only exist then). -/
def randomSearchTrace (optOrDec : Bool) : List SearchStep :=
  [SearchStep.initRegistryB, SearchStep.initPolicyS, SearchStep.startSchedulersB]
    ++ (if optOrDec then
          [SearchStep.createIncumbentS, SearchStep.installIncumbentS]
        else [])
    ++ [SearchStep.submitRootAndWait, SearchStep.stopSchedulersB, SearchStep.readResultS]

/-- Phase order of `BnB::Indexed::search` (always an optimisation search). -/
def indexedSearchTrace : List SearchStep :=
  [SearchStep.createIncumbentS, SearchStep.initRegistryB, SearchStep.installIncumbentS,
   SearchStep.initPolicyS, SearchStep.startSchedulersB, SearchStep.submitRootAndWait,
   SearchStep.stopSchedulersB, SearchStep.readResultS]

/-- The order of phases asserted by the specification: registry broadcast,
then incumbent construction, then initial-bound installation, then policy
initialisation, then scheduler start, then root submission, then scheduler
shutdown, then result read. -/
def claimedSearchOrder (tr : List SearchStep) : Prop :=
  tr.indexOf SearchStep.initRegistryB < tr.indexOf SearchStep.createIncumbentS ∧
  tr.indexOf SearchStep.createIncumbentS < tr.indexOf SearchStep.installIncumbentS ∧
  tr.indexOf SearchStep.installIncumbentS < tr.indexOf SearchStep.initPolicyS ∧
  tr.indexOf SearchStep.initPolicyS < tr.indexOf SearchStep.startSchedulersB ∧
  tr.indexOf SearchStep.startSchedulersB < tr.indexOf SearchStep.submitRootAndWait ∧
  tr.indexOf SearchStep.submitRootAndWait < tr.indexOf SearchStep.stopSchedulersB ∧
  tr.indexOf SearchStep.stopSchedulersB < tr.indexOf SearchStep.readResultS

instance (tr : List SearchStep) : Decidable (claimedSearchOrder tr) := by
  unfold claimedSearchOrder; infer_instance

/-! ### Event traces of the subtree task bodies -/

inductive TaskEvent : Type where
  | reconstructRoot   -- getStartingNode (Indexed only)
  | runExpand         -- the call to expand
  | updateEnumAcc     -- updateEnumerator (Random, enumeration mode)
  | setPromise        -- set_value on the task's completion promise
  | notifyMgrDone     -- posManager::done (Indexed only)
  | signalSem         -- tasks_required_sem.signal() (Indexed only)
  | awaitChildren     -- waiting for the spawned children's futures
deriving DecidableEq, Repr

/-- Event order of `Random::subtreeTask`: after `expand` it schedules a
continuation that first waits on all child futures and only then sets the
completion promise. -/
def subtreeTaskTrace : List TaskEvent :=
  [TaskEvent.runExpand, TaskEvent.updateEnumAcc,
   TaskEvent.awaitChildren, TaskEvent.setPromise]

/-- Event order of `BnB::Indexed::searchChildTask`: the completion promise
is set (and the position manager notified) right after `expand`, and the
wait on the children's futures happens last. -/
def searchChildTaskTrace : List TaskEvent :=
  [TaskEvent.reconstructRoot, TaskEvent.runExpand, TaskEvent.setPromise,
   TaskEvent.notifyMgrDone, TaskEvent.signalSem, TaskEvent.awaitChildren]

/-- A task trace fires its completion promise only after awaiting the
futures of the tasks it spawned. -/
def promiseAfterChildren (tr : List TaskEvent) : Prop :=
  tr.indexOf TaskEvent.awaitChildren < tr.indexOf TaskEvent.setPromise

instance (tr : List TaskEvent) : Decidable (promiseAfterChildren tr) := by
  unfold promiseAfterChildren; infer_instance

/-! ### getStartingNode (Indexed skeleton)

An indexed task carries a path of child indexes starting with a leading
`0` for the root. `getStartingNode` erases the leading entry and then, for
each remaining index `p`, builds the generator of the current node and
takes its `p`-th child via `nth`. The generator's `nth` is modelled by
positional access into the child list. -/

def genNth (t : MTree) (p : Nat) : Option MTree := t.children.get? p

def getStartingNode (root : MTree) (path : List Nat) : Option MTree :=
  (path.drop 1).foldlM genNth root

/-- Specification-side description of the walk: at each level take the
`p`-th child of the current node. -/
def walkPath (root : MTree) : List Nat → Option MTree
  | [] => some root
  | p :: ps => do walkPath (← genNth root p) ps

theorem foldlM_genNth_eq_walkPath (ps : List Nat) : ∀ root : MTree,
    List.foldlM genNth root ps = walkPath root ps := by
  induction ps with
  | nil => intro root; rfl
  | cons p ps ih =>
    intro root
    rw [List.foldlM_cons, walkPath]
    cases genNth root p with
    | none => rfl
    | some n => simpa using ih n

/-! ### PriorityOrderedPolicy

The cluster-global priority workqueue component itself is not among the
sources. Modelled from the spec: the priority workqueue is a single
cluster-global queue of (integer priority, task) pairs; `steal` yields a
task of maximal priority, newest-arrived first on ties, or nothing when
the queue is empty. The entry list is kept newest-first. -/

structure PriorityWorkqueue (T : Type) : Type where
  entries : List (Int × T)

/-- Modelled from the spec: `steal` on the priority workqueue returns a
maximal-priority entry (newest first on ties) or nothing when empty. -/
def pwqSteal {T : Type} (q : PriorityWorkqueue T) : Option (Int × T) :=
  q.entries.foldl
    (fun acc x =>
      match acc with
      | none => some x
      | some b => if x.1 > b.1 then some x else some b)
    none

/-- A locality is named by a number; a task bound to a locality is a pair. -/
def PriorityOrderedPolicy.getWork {T : Type} (here : Nat) (q : PriorityWorkqueue T) :
    Option (T × Nat) :=
  match pwqSteal q with
  | none => none
  | some e => some (e.2, here)

/-- The per-locality policy record: it only holds the handle (a number) of
the global workqueue it forwards to. -/
structure POPolicy : Type where
  globalWorkqueue : Nat
deriving DecidableEq, Repr

/-- `initPolicy`: create one global workqueue (a fresh handle) and install
it in the policy of every locality via broadcast. -/
def PriorityOrderedPolicy.initPolicy (localities : List Nat) (freshHandle : Nat) :
    List (Nat × POPolicy) :=
  localities.map (fun l => (l, POPolicy.mk freshHandle))

/-! ### The Indexed skeleton's expand loop

`BnB::Indexed::expand` iterates over the child positions of the current
node that the task still owns, prunes children whose user bound does not
beat the registry bound (optionally pruning the whole level), installs
improved bounds locally, broadcasts them, updates the global incumbent,
and recurses into surviving children. The trace of one frame records, per
examined position, either a prune or a descent (each tagged with the
bound value loaded at the start of that iteration), together with the
bound/incumbent updates. -/

namespace Indexed

inductive IEffect : Type where
  | pruned (i : Nat) (lb : Int)             -- child at position i pruned; lb was localBound_
  | pruneLevelCall                          -- pos.pruneLevel(); the frame loop breaks
  | updLocal (b : Int)                      -- updateRegistryBound(b) on this locality
  | bcast (b : Int)                         -- broadcast of updateRegistryBound(b)
  | updInc (t : MTree)                      -- updateIncumbent with node t
  | descend (i : Nat) (lb : Int) (sub : List IEffect)  -- recursive expand into child i

theorem sizeOf_children_lt (t : MTree) : sizeOf t.children < sizeOf t := by
  cases t with
  | node o cs => simp [MTree.children]

/-- Modelled from the spec where the positionIndex component is concerned
(it is not among the sources): `pos.getNextPosition()` yields the strictly
increasing sequence `ps` of child positions the task still owns at this
frame, and `pos.pruneLevel()` ends the frame; frames opened by the
recursive call own every position (`List.range`).  Everything else is a
direct transcription of `BnB::Indexed::expand`: `cs` are the children
emitted by the node's generator, `lb` is the registry's `localBound_`,
`bnd` is the user bound function, and `pl` is the PruneLevel flag. The
result is the final local bound and the frame's effect trace. -/
def expand (pl : Bool) (bnd : MTree → Int) (cs : List MTree) :
    List Nat → Int → Int × List IEffect
  | [], lb => (lb, [])
  | p :: ps, lb =>
    match h : cs.get? p with
    | none => expand pl bnd cs ps lb
    | some c =>
      if bnd c ≤ lb then
        if pl then (lb, [IEffect.pruned p lb, IEffect.pruneLevelCall])
        else
          ((expand pl bnd cs ps lb).1, IEffect.pruned p lb :: (expand pl bnd cs ps lb).2)
      else
        ((expand pl bnd cs ps
            (expand pl bnd c.children (List.range c.children.length)
              (if lb < c.obj then c.obj else lb)).1).1,
         (if lb < c.obj then
            [IEffect.updLocal c.obj, IEffect.bcast c.obj, IEffect.updInc c]
          else [])
           ++ IEffect.descend p lb
                (expand pl bnd c.children (List.range c.children.length)
                  (if lb < c.obj then c.obj else lb)).2
           :: (expand pl bnd cs ps
                (expand pl bnd c.children (List.range c.children.length)
                  (if lb < c.obj then c.obj else lb)).1).2)
termination_by ps lb => (sizeOf cs, ps.length)
decreasing_by
  all_goals
    first
      | exact Prod.Lex.right _ (Nat.lt_succ_self _)
      | exact Prod.Lex.left _ _
          (Nat.lt_trans (sizeOf_children_lt c) (List.sizeOf_lt_of_mem (List.get?_mem h)))

/-- Position (if any) that an effect talks about. -/
def evPos : IEffect → Option Nat
  | .pruned i _ => some i
  | .descend i _ _ => some i
  | _ => none

theorem expand_evPos_mem (pl : Bool) (bnd : MTree → Int) :
    ∀ (cs : List MTree) (ps : List Nat) (lb : Int),
      ∀ e ∈ (expand pl bnd cs ps lb).2, ∀ q, evPos e = some q → q ∈ ps := by
  intro cs ps lb
  induction cs, ps, lb using expand.induct pl bnd with
  | case1 cs lb => simp [expand]
  | case2 cs p ps lb h ih =>
    intro e he q hq
    rw [expand] at he; rw [h] at he
    exact List.mem_cons_of_mem _ (ih e he q hq)
  | case3 cs p ps lb c h hb hpl =>
    intro e he q hq
    rw [expand] at he; rw [h] at he
    simp only [if_pos hb, if_pos hpl, List.mem_cons, List.mem_singleton] at he
    rcases he with rfl | rfl | h0
    · simp only [evPos, Option.some.injEq] at hq
      exact hq ▸ List.mem_cons_self p ps
    · simp [evPos] at hq
    · exact absurd h0 (List.not_mem_nil e)
  | case4 cs p ps lb c h hb hpl ih =>
    intro e he q hq
    rw [expand] at he; rw [h] at he
    simp only [if_pos hb, if_neg hpl, List.mem_cons] at he
    rcases he with rfl | he
    · simp only [evPos, Option.some.injEq] at hq
      exact hq ▸ List.mem_cons_self p ps
    · exact List.mem_cons_of_mem _ (ih e he q hq)
  | case5 cs p ps lb c h hb ihc ihr =>
    intro e he q hq
    rw [expand] at he; rw [h] at he
    simp only [if_neg hb, List.mem_append, List.mem_cons] at he
    rcases he with he | he | he
    · rcases Classical.em (lb < c.obj) with himp | himp
      · simp only [if_pos himp, List.mem_cons, List.mem_singleton] at he
        rcases he with rfl | rfl | rfl | h0
        · simp [evPos] at hq
        · simp [evPos] at hq
        · simp [evPos] at hq
        · exact absurd h0 (List.not_mem_nil e)
      · simp only [if_neg himp] at he
        exact absurd he (List.not_mem_nil e)
    · subst he
      simp only [evPos, Option.some.injEq] at hq
      exact hq ▸ List.mem_cons_self p ps
    · exact List.mem_cons_of_mem _ (ihr e he q hq)

theorem expand_pruned_bound (pl : Bool) (bnd : MTree → Int) :
    ∀ (cs : List MTree) (ps : List Nat) (lb : Int),
      ∀ q lbx, IEffect.pruned q lbx ∈ (expand pl bnd cs ps lb).2 →
        ∃ c, cs.get? q = some c ∧ bnd c ≤ lbx := by
  intro cs ps lb
  induction cs, ps, lb using expand.induct pl bnd with
  | case1 cs lb => simp [expand]
  | case2 cs p ps lb h ih =>
    intro q lbx hm
    rw [expand] at hm; rw [h] at hm
    exact ih q lbx hm
  | case3 cs p ps lb c h hb hpl =>
    intro q lbx hm
    rw [expand] at hm; rw [h] at hm
    simp only [if_pos hb, if_pos hpl] at hm
    rcases List.mem_cons.mp hm with heq | hm2
    · obtain ⟨rfl, rfl⟩ : q = p ∧ lbx = lb := by cases heq; exact ⟨rfl, rfl⟩
      exact ⟨c, h, hb⟩
    · rcases List.mem_cons.mp hm2 with heq | hm3
      · exact absurd heq (by simp)
      · exact absurd hm3 (List.not_mem_nil _)
  | case4 cs p ps lb c h hb hpl ih =>
    intro q lbx hm
    rw [expand] at hm; rw [h] at hm
    simp only [if_pos hb, if_neg hpl] at hm
    rcases List.mem_cons.mp hm with heq | hm2
    · obtain ⟨rfl, rfl⟩ : q = p ∧ lbx = lb := by cases heq; exact ⟨rfl, rfl⟩
      exact ⟨c, h, hb⟩
    · exact ih q lbx hm2
  | case5 cs p ps lb c h hb ihc ihr =>
    intro q lbx hm
    rw [expand] at hm; rw [h] at hm
    simp only [if_neg hb, List.mem_append, List.mem_cons] at hm
    rcases hm with hm | hm | hm
    · rcases Classical.em (lb < c.obj) with himp | himp
      · simp only [if_pos himp, List.mem_cons, List.mem_singleton] at hm
        rcases hm with hm | hm | hm | hm
        · exact absurd hm (by simp)
        · exact absurd hm (by simp)
        · exact absurd hm (by simp)
        · exact absurd hm (List.not_mem_nil _)
      · simp only [if_neg himp] at hm
        exact absurd hm (List.not_mem_nil _)
    · exact absurd hm (by simp)
    · exact ihr q lbx hm

theorem expand_descend_upd (pl : Bool) (bnd : MTree → Int) :
    ∀ (cs : List MTree) (ps : List Nat) (lb : Int),
      ∀ q lbx sub, IEffect.descend q lbx sub ∈ (expand pl bnd cs ps lb).2 →
        ∀ c, cs.get? q = some c → lbx < c.obj →
          IEffect.updLocal c.obj ∈ (expand pl bnd cs ps lb).2 ∧
          IEffect.bcast c.obj ∈ (expand pl bnd cs ps lb).2 ∧
          IEffect.updInc c ∈ (expand pl bnd cs ps lb).2 := by
  intro cs ps lb
  induction cs, ps, lb using expand.induct pl bnd with
  | case1 cs lb => simp [expand]
  | case2 cs p ps lb h ih =>
    intro q lbx sub hm c hc himp
    rw [expand] at hm ⊢; rw [h] at hm ⊢
    exact ih q lbx sub hm c hc himp
  | case3 cs p ps lb c h hb hpl =>
    intro q lbx sub hm c0 hc himp
    rw [expand] at hm; rw [h] at hm
    simp only [if_pos hb, if_pos hpl] at hm
    rcases List.mem_cons.mp hm with heq | hm2
    · exact absurd heq (by simp)
    · rcases List.mem_cons.mp hm2 with heq | hm3
      · exact absurd heq (by simp)
      · exact absurd hm3 (List.not_mem_nil _)
  | case4 cs p ps lb c h hb hpl ih =>
    intro q lbx sub hm c0 hc himp
    rw [expand] at hm ⊢; rw [h] at hm ⊢
    simp only [if_pos hb, if_neg hpl] at hm ⊢
    rcases List.mem_cons.mp hm with heq | hm2
    · exact absurd heq (by simp)
    · obtain ⟨h1, h2, h3⟩ := ih q lbx sub hm2 c0 hc himp
      exact ⟨List.mem_cons_of_mem _ h1, List.mem_cons_of_mem _ h2,
             List.mem_cons_of_mem _ h3⟩
  | case5 cs p ps lb c h hb ihc ihr =>
    intro q lbx sub hm c0 hc himp
    rw [expand] at hm ⊢; rw [h] at hm ⊢
    simp only [if_neg hb, List.mem_append, List.mem_cons] at hm ⊢
    rcases hm with hm | hm | hm
    · rcases Classical.em (lb < c.obj) with hio | hio
      · simp only [if_pos hio, List.mem_cons, List.mem_singleton] at hm
        rcases hm with hm | hm | hm | hm
        · exact absurd hm (by simp)
        · exact absurd hm (by simp)
        · exact absurd hm (by simp)
        · exact absurd hm (List.not_mem_nil _)
      · simp only [if_neg hio] at hm
        exact absurd hm (List.not_mem_nil _)
    · have hq : q = p := by cases hm; rfl
      have hlb : lbx = lb := by cases hm; rfl
      have hcc : c0 = c := by
        rw [hq] at hc; rw [hc] at h; cases h; rfl
      have hio : lb < c.obj := by rw [← hlb, ← hcc]; exact himp
      rw [hcc]
      simp [if_pos hio]
    · obtain ⟨h1, h2, h3⟩ := ihr q lbx sub hm c0 hc himp
      exact ⟨Or.inr (Or.inr h1), Or.inr (Or.inr h2), Or.inr (Or.inr h3)⟩

theorem expand_pruneLevel_last (bnd : MTree → Int) :
    ∀ (cs : List MTree) (ps : List Nat) (lb : Int),
      ∀ q lbx, IEffect.pruned q lbx ∈ (expand true bnd cs ps lb).2 →
        ∃ pre, (expand true bnd cs ps lb).2
                 = pre ++ [IEffect.pruned q lbx, IEffect.pruneLevelCall] := by
  intro cs ps lb
  induction cs, ps, lb using expand.induct true bnd with
  | case1 cs lb => simp [expand]
  | case2 cs p ps lb h ih =>
    intro q lbx hm
    rw [expand] at hm ⊢; rw [h] at hm ⊢
    exact ih q lbx hm
  | case3 cs p ps lb c h hb hpl =>
    intro q lbx hm
    rw [expand] at hm; rw [h] at hm
    simp only [if_pos hb, if_pos hpl] at hm
    rcases List.mem_cons.mp hm with heq | hm2
    · have hq : q = p := by cases heq; rfl
      have hlb : lbx = lb := by cases heq; rfl
      refine ⟨[], ?_⟩
      rw [expand]; rw [h]
      rw [hq, hlb]
      simp [if_pos hb, if_pos hpl]
    · rcases List.mem_cons.mp hm2 with heq | hm3
      · exact absurd heq (by simp)
      · exact absurd hm3 (List.not_mem_nil _)
  | case4 cs p ps lb c h hb hpl ih =>
    exact absurd rfl hpl
  | case5 cs p ps lb c h hb ihc ihr =>
    intro q lbx hm
    rw [expand] at hm; rw [h] at hm
    simp only [if_neg hb, List.mem_append, List.mem_cons] at hm
    rcases hm with hm | hm | hm
    · rcases Classical.em (lb < c.obj) with hio | hio
      · simp only [if_pos hio, List.mem_cons, List.mem_singleton] at hm
        rcases hm with hm | hm | hm | hm
        · exact absurd hm (by simp)
        · exact absurd hm (by simp)
        · exact absurd hm (by simp)
        · exact absurd hm (List.not_mem_nil _)
      · simp only [if_neg hio] at hm
        exact absurd hm (List.not_mem_nil _)
    · exact absurd hm (by simp)
    · obtain ⟨pre, hpre⟩ := ihr q lbx hm
      have hpre2 :
          (expand true bnd cs ps
            ((expand true bnd c.children (List.range c.children.length)
               (if lb < c.obj then c.obj else lb)).1)).2
            = pre ++ [IEffect.pruned q lbx, IEffect.pruneLevelCall] := hpre
      refine ⟨(if lb < c.obj then
                 [IEffect.updLocal c.obj, IEffect.bcast c.obj, IEffect.updInc c]
               else ([] : List IEffect))
                ++ IEffect.descend p lb
                     (expand true bnd c.children (List.range c.children.length)
                       (if lb < c.obj then c.obj else lb)).2 :: pre, ?_⟩
      rw [expand]; rw [h]
      simp only [if_neg hb]
      rw [hpre2]
      simp

theorem expand_pruned_not_descended (pl : Bool) (bnd : MTree → Int) :
    ∀ (cs : List MTree) (ps : List Nat) (lb : Int), ps.Nodup →
      ∀ p lbx, IEffect.pruned p lbx ∈ (expand pl bnd cs ps lb).2 →
        ∀ lby sub, IEffect.descend p lby sub ∉ (expand pl bnd cs ps lb).2 := by
  intro cs ps lb
  induction cs, ps, lb using expand.induct pl bnd with
  | case1 cs lb => simp [expand]
  | case2 cs p ps lb h ih =>
    intro hnd q lbx hm lby sub
    rw [expand] at hm ⊢; rw [h] at hm ⊢
    exact ih (List.nodup_cons.mp hnd).2 q lbx hm lby sub
  | case3 cs p ps lb c h hb hpl =>
    intro hnd q lbx hm lby sub hd
    rw [expand] at hd; rw [h] at hd
    simp only [if_pos hb, if_pos hpl] at hd
    rcases List.mem_cons.mp hd with heq | hd2
    · exact absurd heq (by simp)
    · rcases List.mem_cons.mp hd2 with heq | hd3
      · exact absurd heq (by simp)
      · exact absurd hd3 (List.not_mem_nil _)
  | case4 cs p ps lb c h hb hpl ih =>
    intro hnd q lbx hm lby sub hd
    obtain ⟨hp, hnd2⟩ := List.nodup_cons.mp hnd
    rw [expand] at hm hd; rw [h] at hm hd
    simp only [if_pos hb, if_neg hpl] at hm hd
    rcases List.mem_cons.mp hd with heq | hd2
    · exact absurd heq (by simp)
    · rcases List.mem_cons.mp hm with heq | hm2
      · have hq : q = p := by cases heq; rfl
        subst hq
        exact hp (expand_evPos_mem pl bnd cs ps lb _ hd2 q rfl)
      · exact ih hnd2 q lbx hm2 lby sub hd2
  | case5 cs p ps lb c h hb ihc ihr =>
    intro hnd q lbx hm lby sub hd
    obtain ⟨hp, hnd2⟩ := List.nodup_cons.mp hnd
    rw [expand] at hm hd; rw [h] at hm hd
    simp only [if_neg hb, List.mem_append, List.mem_cons] at hm hd
    have hmr : IEffect.pruned q lbx ∈
        (expand pl bnd cs ps
          ((expand pl bnd c.children (List.range c.children.length)
             (if lb < c.obj then c.obj else lb)).1)).2 := by
      rcases hm with hm | hm | hm
      · rcases Classical.em (lb < c.obj) with hio | hio
        · simp only [if_pos hio, List.mem_cons, List.mem_singleton] at hm
          rcases hm with hm | hm | hm | hm
          · exact absurd hm (by simp)
          · exact absurd hm (by simp)
          · exact absurd hm (by simp)
          · exact absurd hm (List.not_mem_nil _)
        · simp only [if_neg hio] at hm
          exact absurd hm (List.not_mem_nil _)
      · exact absurd hm (by simp)
      · exact hm
    have hqps : q ∈ ps := expand_evPos_mem pl bnd cs ps _ _ hmr q rfl
    rcases hd with hd | hd | hd
    · rcases Classical.em (lb < c.obj) with hio | hio
      · simp only [if_pos hio, List.mem_cons, List.mem_singleton] at hd
        rcases hd with hd | hd | hd | hd
        · exact absurd hd (by simp)
        · exact absurd hd (by simp)
        · exact absurd hd (by simp)
        · exact absurd hd (List.not_mem_nil _)
      · simp only [if_neg hio] at hd
        exact absurd hd (List.not_mem_nil _)
    · have hq : q = p := by cases hd; rfl
      exact hp (hq ▸ hqps)
    · exact ihr hnd2 q lbx hmr lby sub hd

/-- Claim C3: in the Indexed skeleton's `expand`, a child whose user bound
is not strictly better than the registry's local bound at the time of the
check is pruned: no descent into it appears in the frame trace (the
Indexed skeleton never spawns from `expand`, so the child is not handed
off either); and with PruneLevel enabled the frame ends immediately after
`pruneLevel`, so no remaining sibling of the frame is examined. -/
theorem indexed_prune_level_sound (pl : Bool) (bnd : MTree → Int)
    (cs : List MTree) (ps : List Nat) (lb : Int) (hnd : ps.Nodup) :
    (∀ p lbx, IEffect.pruned p lbx ∈ (expand pl bnd cs ps lb).2 →
        ∀ lby sub, IEffect.descend p lby sub ∉ (expand pl bnd cs ps lb).2) ∧
    (pl = true → ∀ p lbx, IEffect.pruned p lbx ∈ (expand pl bnd cs ps lb).2 →
        ∃ pre, (expand pl bnd cs ps lb).2
                 = pre ++ [IEffect.pruned p lbx, IEffect.pruneLevelCall]) := by
  constructor
  · exact expand_pruned_not_descended pl bnd cs ps lb hnd
  · intro hpl p lbx hm
    subst hpl
    exact expand_pruneLevel_last bnd cs ps lb p lbx hm

/-- Claim C3 witness: a concrete frame with two children where the first
is pruned and the claim's conclusions hold. -/
theorem indexed_prune_level_sound_witness :
    ([0, 1] : List Nat).Nodup ∧
    ((∀ p lbx, IEffect.pruned p lbx ∈
        (expand true (fun t => t.obj) [MTree.node 1 [], MTree.node 9 []] [0, 1] 5).2 →
        ∀ lby sub, IEffect.descend p lby sub ∉
          (expand true (fun t => t.obj) [MTree.node 1 [], MTree.node 9 []] [0, 1] 5).2) ∧
     (true = true → ∀ p lbx, IEffect.pruned p lbx ∈
        (expand true (fun t => t.obj) [MTree.node 1 [], MTree.node 9 []] [0, 1] 5).2 →
        ∃ pre, (expand true (fun t => t.obj) [MTree.node 1 [], MTree.node 9 []] [0, 1] 5).2
                 = pre ++ [IEffect.pruned p lbx, IEffect.pruneLevelCall])) :=
  ⟨by decide,
   indexed_prune_level_sound true (fun t => t.obj)
     [MTree.node 1 [], MTree.node 9 []] [0, 1] 5 (by decide)⟩

/-- Claim C4: in the Indexed skeleton's `expand`, whenever a child whose
bound was checked against the locally read bound has an objective that
strictly improves that bound, the trace contains the local registry bound
update, the broadcast of the improved bound, and the global incumbent
update with that child. (For an admissible user bound — one that is an
upper bound on the objective, as the spec requires — a child whose
objective improves the read bound can never be pruned, so the update
triple fires for every such examined child.) -/
theorem indexed_improvement_updates (pl : Bool) (bnd : MTree → Int)
    (cs : List MTree) (ps : List Nat) (lb : Int) (p : Nat) (lbx : Int) (c : MTree)
    (hadm : ∀ t : MTree, t.obj ≤ bnd t)
    (hc : cs.get? p = some c)
    (hchecked : IEffect.pruned p lbx ∈ (expand pl bnd cs ps lb).2 ∨
                ∃ sub, IEffect.descend p lbx sub ∈ (expand pl bnd cs ps lb).2)
    (himp : lbx < c.obj) :
    IEffect.updLocal c.obj ∈ (expand pl bnd cs ps lb).2 ∧
    IEffect.bcast c.obj ∈ (expand pl bnd cs ps lb).2 ∧
    IEffect.updInc c ∈ (expand pl bnd cs ps lb).2 := by
  rcases hchecked with hm | ⟨sub, hm⟩
  · obtain ⟨c2, hc2, hb2⟩ := expand_pruned_bound pl bnd cs ps lb p lbx hm
    rw [hc] at hc2
    cases hc2
    exact absurd (lt_of_lt_of_le himp (hadm c)) (not_lt.mpr hb2)
  · exact expand_descend_upd pl bnd cs ps lb p lbx sub hm c hc himp

/-- Claim C4 witness: a concrete frame where an improving child is
examined and the update triple appears in the trace. -/
theorem indexed_improvement_updates_witness :
    IEffect.updLocal (7 : Int) ∈
      (expand false (fun t => t.obj) [MTree.node 7 []] [0] 5).2 ∧
    IEffect.bcast (7 : Int) ∈
      (expand false (fun t => t.obj) [MTree.node 7 []] [0] 5).2 ∧
    IEffect.updInc (MTree.node 7 []) ∈
      (expand false (fun t => t.obj) [MTree.node 7 []] [0] 5).2 := by
  have h := indexed_improvement_updates false (fun t => t.obj)
    [MTree.node 7 []] [0] 5 0 5 (MTree.node 7 [])
    (fun t => le_refl t.obj) rfl
    (Or.inr ⟨(expand false (fun t => t.obj) [] [] 7).2, by
      rw [expand]
      simp [expand, MTree.obj, MTree.children]⟩)
    (by simp [MTree.obj])
  simpa [MTree.obj] using h

end Indexed

/-- The backbone phase order common to both search drivers. -/
def searchBackbone (tr : List SearchStep) : Prop :=
  tr.indexOf SearchStep.initRegistryB < tr.indexOf SearchStep.initPolicyS ∧
  tr.indexOf SearchStep.initPolicyS < tr.indexOf SearchStep.startSchedulersB ∧
  tr.indexOf SearchStep.startSchedulersB < tr.indexOf SearchStep.submitRootAndWait ∧
  tr.indexOf SearchStep.submitRootAndWait < tr.indexOf SearchStep.stopSchedulersB ∧
  tr.indexOf SearchStep.stopSchedulersB < tr.indexOf SearchStep.readResultS

instance (tr : List SearchStep) : Decidable (searchBackbone tr) := by
  unfold searchBackbone; infer_instance

/-- Claim C1: `Random::subtreeTask` fires its completion promise only
after all child futures are waited on, but `BnB::Indexed::searchChildTask`
sets its completion promise before `posIdx->waitFutures()`, so the claim
fails on the Indexed task body (the spec itself flags this source
behaviour as a bug in its open-questions section). -/
theorem promise_order_bug :
    promiseAfterChildren subtreeTaskTrace ∧
    ¬ promiseAfterChildren searchChildTaskTrace := by
  decide

/-- Claim C2 counterexample: the claimed phase order fails for both search
drivers. `Random::search` constructs the incumbent only after policy
initialisation and scheduler startup; `BnB::Indexed::search` constructs
the incumbent before the registry broadcast. -/
theorem search_order_claim_false :
    ¬ claimedSearchOrder (randomSearchTrace true) ∧
    ¬ claimedSearchOrder indexedSearchTrace := by
  decide

/-- Claim C2 amended: both drivers broadcast registry initialisation
before initialising the policy, initialise the policy before starting
schedulers, start schedulers before submitting the root task, block on the
root promise before broadcasting shutdown, and read the result last. The
incumbent is constructed and installed before the root task is submitted,
but not where the claim places it: in `Random::search` both incumbent
phases come after scheduler startup, and in `BnB::Indexed::search` the
incumbent is constructed before the registry broadcast and installed right
after it. -/
theorem search_order_amended :
    (∀ b, searchBackbone (randomSearchTrace b)) ∧
    searchBackbone indexedSearchTrace ∧
    ((randomSearchTrace true).indexOf SearchStep.startSchedulersB
       < (randomSearchTrace true).indexOf SearchStep.createIncumbentS ∧
     (randomSearchTrace true).indexOf SearchStep.createIncumbentS
       < (randomSearchTrace true).indexOf SearchStep.installIncumbentS ∧
     (randomSearchTrace true).indexOf SearchStep.installIncumbentS
       < (randomSearchTrace true).indexOf SearchStep.submitRootAndWait) ∧
    (indexedSearchTrace.indexOf SearchStep.createIncumbentS
       < indexedSearchTrace.indexOf SearchStep.initRegistryB ∧
     indexedSearchTrace.indexOf SearchStep.initRegistryB
       < indexedSearchTrace.indexOf SearchStep.installIncumbentS ∧
     indexedSearchTrace.indexOf SearchStep.installIncumbentS
       < indexedSearchTrace.indexOf SearchStep.initPolicyS) := by
  refine ⟨?_, by decide, by decide, by decide⟩
  intro b
  cases b <;> decide

/-- Claim C7: `getStartingNode` on a path `[0, p1, ..., pk]` returns the
node reached from the registry root by taking the `pi`-th child via the
generator's `nth` at each level `i`; on the path `[0]` it returns the root
itself without consulting any generator. -/
theorem getStartingNode_correct (root : MTree) (ps : List Nat) :
    getStartingNode root (0 :: ps) = walkPath root ps ∧
    getStartingNode root [0] = some root :=
  ⟨foldlM_genNth_eq_walkPath ps root, rfl⟩

/-- Claim C9: `PriorityOrderedPolicy::getWork` returns nothing exactly
when the cluster-global priority workqueue yields no task, and otherwise
returns the stolen task bound to the calling locality; `initPolicy`
creates a single global workqueue and installs the same handle into the
policy of every locality. -/
theorem priority_ordered_policy_correct {T : Type} (here : Nat)
    (q : PriorityWorkqueue T) (localities : List Nat) (freshHandle : Nat) :
    (PriorityOrderedPolicy.getWork here q = none ↔ pwqSteal q = none) ∧
    (∀ e, pwqSteal q = some e →
       PriorityOrderedPolicy.getWork here q = some (e.2, here)) ∧
    (∀ l pol, (l, pol) ∈ PriorityOrderedPolicy.initPolicy localities freshHandle →
       pol = POPolicy.mk freshHandle) := by
  refine ⟨?_, ?_, ?_⟩
  · unfold PriorityOrderedPolicy.getWork
    cases pwqSteal q <;> simp
  · intro e he
    unfold PriorityOrderedPolicy.getWork
    rw [he]
  · intro l pol hm
    unfold PriorityOrderedPolicy.initPolicy at hm
    obtain ⟨x, hx, hxe⟩ := List.mem_map.mp hm
    cases hxe
    rfl

/-- Claim C9 witness: a concrete queue with two entries; the
maximal-priority task is returned bound to the calling locality, and every
locality's policy holds the one fresh handle. -/
theorem priority_ordered_policy_correct_witness :
    PriorityOrderedPolicy.getWork 2
        (PriorityWorkqueue.mk [((1 : Int), (42 : Nat)), (3, 7)]) = some (7, 2) ∧
    POPolicy.mk 5 = POPolicy.mk 5 :=
  ⟨(priority_ordered_policy_correct 2
      (PriorityWorkqueue.mk [((1 : Int), (42 : Nat)), (3, 7)]) [0, 1] 5).2.1
      (3, 7) (by decide),
   (priority_ordered_policy_correct 2
      (PriorityWorkqueue.mk [((1 : Int), (42 : Nat)), (3, 7)]) [0, 1] 5).2.2
      0 (POPolicy.mk 5) (by simp [PriorityOrderedPolicy.initPolicy])⟩

/-! ### The maxclique application

`BitSet` values are modelled as `Finset Nat` (`popcount` = card,
`first_set_bit` = least element, `unset` = erase, `intersect_with_row v s`
= `s ∩ G v`, `intersect_with_row_complement v s` = removing `v`'s
neighbours); the graph is the function `G` from a vertex to its adjacency
row. -/

namespace MaxClique

/-- The solution part of a maxclique node (struct MCSol). -/
structure MCSol : Type where
  members : List Nat
  colours : Int
deriving DecidableEq, Repr

/-- A maxclique search node (struct MCNode): current clique, its size, and
the remaining candidate vertex set. -/
structure MCNode : Type where
  sol : MCSol
  size : Int
  remaining : Finset Nat
deriving DecidableEq

/-- Inner loop of `colour_class_order`: hand colour `col` to a maximal
greedy subset of `q`, removing each coloured vertex from `pleft` and its
neighbours from `q`. Returns the rest of `pleft` and the (vertex, colour)
pairs in emission order. -/
def colourInner (G : Nat → Finset Nat) (col : Nat) (pleft q : Finset Nat) :
    Finset Nat × List (Nat × Nat) :=
  if h : q.Nonempty then
    ((colourInner G col (pleft.erase (q.min' h))
        ((q.erase (q.min' h)).filter (fun u => u ∉ G (q.min' h)))).1,
     (q.min' h, col) ::
       (colourInner G col (pleft.erase (q.min' h))
          ((q.erase (q.min' h)).filter (fun u => u ∉ G (q.min' h)))).2)
  else (pleft, [])
termination_by q.card
decreasing_by
  all_goals
    exact lt_of_le_of_lt (Finset.card_le_card (Finset.filter_subset _ _))
      (Finset.card_erase_lt_of_mem (q.min'_mem h))

theorem colourInner_fst_subset (G : Nat → Finset Nat) (col : Nat) :
    ∀ (pleft q : Finset Nat), (colourInner G col pleft q).1 ⊆ pleft := by
  intro pleft q
  induction pleft, q using colourInner.induct G col with
  | case1 pleft q h ih =>
    rw [colourInner]
    simp only [dif_pos h]
    exact ih.trans (Finset.erase_subset _ _)
  | case2 pleft q h =>
    rw [colourInner]
    simp only [dif_neg h]
    exact Finset.Subset.refl _

theorem colourInner_fst_card_lt (G : Nat → Finset Nat) (col : Nat)
    (pleft q : Finset Nat) (h : q.Nonempty) (hsub : q ⊆ pleft) :
    (colourInner G col pleft q).1.card < pleft.card := by
  rw [colourInner]
  simp only [dif_pos h]
  exact lt_of_le_of_lt
    (Finset.card_le_card (colourInner_fst_subset G col _ _))
    (Finset.card_erase_lt_of_mem (hsub (q.min'_mem h)))

/-- Outer loop of `colour_class_order`: colour classes 1, 2, ... until
every vertex of `pleft` is coloured. -/
def colourOuter (G : Nat → Finset Nat) (col : Nat) (pleft : Finset Nat) :
    List (Nat × Nat) :=
  if h : pleft.Nonempty then
    (colourInner G (col + 1) pleft pleft).2
      ++ colourOuter G (col + 1) (colourInner G (col + 1) pleft pleft).1
  else []
termination_by pleft.card
decreasing_by
  exact colourInner_fst_card_lt G (col + 1) pleft pleft h (fun a ha => ha)

/-- `colour_class_order`: the (p_order, p_bounds) arrays, fused into one
list of (vertex, colour) pairs in array order. -/
def colour_class_order (G : Nat → Finset Nat) (p : Finset Nat) :
    List (Nat × Nat) :=
  colourOuter G 0 p

theorem colourInner_snd_colour (G : Nat → Finset Nat) (col : Nat) :
    ∀ (pleft q : Finset Nat), ∀ x ∈ (colourInner G col pleft q).2, x.2 = col := by
  intro pleft q
  induction pleft, q using colourInner.induct G col with
  | case1 pleft q h ih =>
    intro x hx
    rw [colourInner] at hx
    simp only [dif_pos h] at hx
    rcases List.mem_cons.mp hx with heq | hx2
    · rw [heq]
    · exact ih x hx2
  | case2 pleft q h =>
    intro x hx
    rw [colourInner] at hx
    simp only [dif_neg h] at hx
    exact absurd hx (List.not_mem_nil _)

theorem colourInner_card (G : Nat → Finset Nat) (col : Nat) :
    ∀ (pleft q : Finset Nat), q ⊆ pleft →
      (colourInner G col pleft q).1.card + (colourInner G col pleft q).2.length
        = pleft.card := by
  intro pleft q
  induction pleft, q using colourInner.induct G col with
  | case1 pleft q h ih =>
    intro hsub
    have hmem : q.min' h ∈ pleft := hsub (q.min'_mem h)
    have hsub2 : (q.erase (q.min' h)).filter (fun u => u ∉ G (q.min' h))
        ⊆ pleft.erase (q.min' h) :=
      (Finset.filter_subset _ _).trans (Finset.erase_subset_erase _ hsub)
    have h2 := ih hsub2
    have h3 : (pleft.erase (q.min' h)).card = pleft.card - 1 :=
      Finset.card_erase_of_mem hmem
    have h4 : 1 ≤ pleft.card := Finset.card_pos.mpr ⟨_, hmem⟩
    rw [colourInner]
    simp only [dif_pos h, List.length_cons]
    omega
  | case2 pleft q h =>
    intro hsub
    rw [colourInner]
    simp only [dif_neg h, List.length_nil]
    omega

theorem colourOuter_length (G : Nat → Finset Nat) :
    ∀ (col : Nat) (pleft : Finset Nat),
      (colourOuter G col pleft).length = pleft.card := by
  intro col pleft
  induction col, pleft using colourOuter.induct G with
  | case1 col pleft h ih =>
    rw [colourOuter]
    simp only [dif_pos h, List.length_append]
    have h2 := colourInner_card G (col + 1) pleft pleft (fun a ha => ha)
    omega
  | case2 col pleft h =>
    rw [colourOuter]
    simp only [dif_neg h, List.length_nil]
    rw [Finset.not_nonempty_iff_eq_empty.mp h]
    rfl

theorem colourOuter_gt (G : Nat → Finset Nat) :
    ∀ (col : Nat) (pleft : Finset Nat),
      ∀ x ∈ colourOuter G col pleft, col < x.2 := by
  intro col pleft
  induction col, pleft using colourOuter.induct G with
  | case1 col pleft h ih =>
    intro x hx
    rw [colourOuter] at hx
    simp only [dif_pos h, List.mem_append] at hx
    rcases hx with hx | hx
    · rw [colourInner_snd_colour G (col + 1) pleft pleft x hx]
      exact Nat.lt_succ_self col
    · exact Nat.lt_of_succ_lt (ih x hx)
  | case2 col pleft h =>
    intro x hx
    rw [colourOuter] at hx
    simp only [dif_neg h] at hx
    exact absurd hx (List.not_mem_nil _)

theorem sorted_of_all_eq {l : List Nat} {c : Nat} (h : ∀ x ∈ l, x = c) :
    List.Sorted (· ≤ ·) l := by
  induction l with
  | nil => exact List.sorted_nil
  | cons a l ih =>
    rw [List.sorted_cons]
    constructor
    · intro b hb
      rw [h a (List.mem_cons_self a l), h b (List.mem_cons_of_mem _ hb)]
    · exact ih (fun x hx => h x (List.mem_cons_of_mem _ hx))

theorem colourOuter_sorted (G : Nat → Finset Nat) :
    ∀ (col : Nat) (pleft : Finset Nat),
      List.Sorted (· ≤ ·) ((colourOuter G col pleft).map Prod.snd) := by
  intro col pleft
  induction col, pleft using colourOuter.induct G with
  | case1 col pleft h ih =>
    rw [colourOuter]
    simp only [dif_pos h, List.map_append]
    refine List.pairwise_append.mpr ⟨?_, ih, ?_⟩
    · exact sorted_of_all_eq (by
        intro x hx
        obtain ⟨y, hy, rfl⟩ := List.mem_map.mp hx
        exact colourInner_snd_colour G (col + 1) pleft pleft y hy)
    · intro a ha b hb
      obtain ⟨y, hy, rfl⟩ := List.mem_map.mp ha
      obtain ⟨z, hz, rfl⟩ := List.mem_map.mp hb
      rw [colourInner_snd_colour G (col + 1) pleft pleft y hy]
      exact Nat.le_of_lt (colourOuter_gt G (col + 1) _ z hz)
  | case2 col pleft h =>
    rw [colourOuter]
    simp only [dif_neg h, List.map_nil]
    exact List.sorted_nil

/-- The iteration state of the maxclique `GenNode`: the colour-ordered
vertex/colour array (`p_order` and `colourClass` fused into one list),
the per-generator constants `childSol` and `childBnd`, the candidate set
`p`, and the cursor `v`. The C++ cursor is an `int` that stays
nonnegative while children remain (the claims only constrain such
states), so it is modelled as a `Nat`. -/
structure GenState : Type where
  ord : List (Nat × Nat)
  childSol : MCSol
  childBnd : Int
  p : Finset Nat
  v : Nat
deriving DecidableEq

def pOrder (s : GenState) (i : Nat) : Nat := (s.ord.getD i (0, 0)).1

def colourCl (s : GenState) (i : Nat) : Nat := (s.ord.getD i (0, 0)).2

/-- The `GenNode` constructor: colour-order the parent's candidates, copy
its solution, set `childBnd = n.size + 1`, `p = n.remaining` and
`v = numChildren - 1` with `numChildren = p.popcount`. -/
def GenNode.init (G : Nat → Finset Nat) (n : MCNode) : GenState :=
  { ord := colour_class_order G n.remaining
    childSol := n.sol
    childBnd := n.size + 1
    p := n.remaining
    v := n.remaining.card - 1 }

/-- `GenNode::next`: emit the child at the cursor, then (side-effectfully)
remove its vertex from `p` and decrement the cursor. -/
def next (G : Nat → Finset Nat) (s : GenState) : MCNode × GenState :=
  ({ sol := { members := s.childSol.members ++ [pOrder s s.v]
              colours := (colourCl s s.v : Int) - 1 }
     size := s.childBnd
     remaining := s.p ∩ G (pOrder s s.v) },
   { s with p := s.p.erase (pOrder s s.v), v := s.v - 1 })

/-- `GenNode::nth`: emit the child at position `v - n`; the candidate copy
first drops the vertices strictly between the cursor and that position;
no field of the generator is written. -/
def nth (G : Nat → Finset Nat) (s : GenState) (n : Nat) : MCNode × GenState :=
  ({ sol := { members := s.childSol.members ++ [pOrder s (s.v - n)]
              colours := (colourCl s (s.v - n) : Int) - 1 }
     size := s.childBnd
     remaining :=
       (((List.range n).map (fun j => pOrder s (s.v - j))).foldl Finset.erase s.p)
         ∩ G (pOrder s (s.v - n)) },
   s)

/-- The child returned by the (k+1)-th successive `next()` call from state
`s`, together with the state after those calls. -/
def nextIter (G : Nat → Finset Nat) : Nat → GenState → MCNode × GenState
  | 0, s => next G s
  | k + 1, s => nextIter G k (next G s).2

/-- The maxclique `upperBound` function: `n.size + n.sol.colours`. -/
def upperBound (_space : Nat → Finset Nat) (n : MCNode) : Int :=
  n.size + n.sol.colours

/-- Claim C8: for the maxclique GenNode in any state with at least `k + 1`
children remaining (the cursor at least `k`), `nth k` returns exactly the
node that the `(k+1)`-th successive `next()` from that state would return,
and it leaves the whole iteration state (`ord`, `childSol`, `childBnd`,
`p`, `v`) unchanged. -/
theorem nth_eq_iterated_next (G : Nat → Finset Nat) :
    ∀ (k : Nat) (s : GenState), k ≤ s.v →
      nth G s k = ((nextIter G k s).1, s) := by
  intro k
  induction k with
  | zero =>
    intro s hk
    simp [nth, next, nextIter]
  | succ k ih =>
    intro s hk
    have hk2 : k ≤ ((next G s).2).v := by
      simp only [next]
      omega
    have h2 := ih ((next G s).2) hk2
    have hfst : (nextIter G (k + 1) s).1 = (nth G ((next G s).2) k).1 := by
      rw [nextIter, h2]
    rw [hfst]
    have hidx : s.v - 1 - k = s.v - (k + 1) := by omega
    simp only [nth, next, pOrder, colourCl]
    rw [Prod.mk.injEq]
    refine ⟨?_, rfl⟩
    rw [MCNode.mk.injEq, MCSol.mk.injEq]
    refine ⟨⟨?_, ?_⟩, rfl, ?_⟩
    · rw [hidx]
    · rw [hidx]
    · rw [hidx, List.range_succ_eq_map]
      simp only [List.map_cons, List.map_map, List.foldl_cons, Nat.sub_zero]
      have hmaps :
          (List.range k).map ((fun j => (s.ord.getD (s.v - j) (0, 0)).1) ∘ Nat.succ)
            = (List.range k).map (fun j => (s.ord.getD (s.v - 1 - j) (0, 0)).1) := by
        apply List.map_congr_left
        intro j hj
        simp only [Function.comp_apply]
        congr 2
        omega
      rw [hmaps]

/-- Claim C8 witness: a concrete three-child generator state where
`nth 1` equals the result of two successive `next()` calls and leaves the
state untouched. -/
theorem nth_eq_iterated_next_witness :
    nth (fun _ => ({0, 1, 2} : Finset Nat))
        (GenState.mk [(0, 1), (1, 1), (2, 2)] (MCSol.mk [] 0) 1 {0, 1, 2} 2) 1
      = ((nextIter (fun _ => ({0, 1, 2} : Finset Nat)) 1
            (GenState.mk [(0, 1), (1, 1), (2, 2)] (MCSol.mk [] 0) 1 {0, 1, 2} 2)).1,
         GenState.mk [(0, 1), (1, 1), (2, 2)] (MCSol.mk [] 0) 1 {0, 1, 2} 2) :=
  nth_eq_iterated_next (fun _ => ({0, 1, 2} : Finset Nat)) 1
    (GenState.mk [(0, 1), (1, 1), (2, 2)] (MCSol.mk [] 0) 1 {0, 1, 2} 2)
    (by decide)

theorem nextIter_fst_fields (G : Nat → Finset Nat) :
    ∀ (k : Nat) (s : GenState), k ≤ s.v →
      (nextIter G k s).1.size = s.childBnd ∧
      (nextIter G k s).1.sol.colours = (colourCl s (s.v - k) : Int) - 1 := by
  intro k
  induction k with
  | zero =>
    intro s hk
    simp [nextIter, next, colourCl]
  | succ k ih =>
    intro s hk
    have hk2 : k ≤ ((next G s).2).v := by
      simp only [next]
      omega
    obtain ⟨h1, h2⟩ := ih ((next G s).2) hk2
    rw [nextIter]
    refine ⟨by rw [h1]; rfl, ?_⟩
    rw [h2]
    simp only [next, colourCl]
    have hidx : s.v - 1 - k = s.v - (k + 1) := by omega
    rw [hidx]

theorem colourCl_mono (G : Nat → Finset Nat) (n : MCNode) (i1 i2 : Nat)
    (h12 : i1 < i2) (h2 : i2 < n.remaining.card) :
    colourCl (GenNode.init G n) i1 ≤ colourCl (GenNode.init G n) i2 := by
  have hlen : (colour_class_order G n.remaining).length = n.remaining.card :=
    colourOuter_length G 0 n.remaining
  have hl1 : i1 < (colour_class_order G n.remaining).length := by omega
  have hl2 : i2 < (colour_class_order G n.remaining).length := by omega
  have hsorted := colourOuter_sorted G 0 n.remaining
  have hml1 : i1 < ((colour_class_order G n.remaining).map Prod.snd).length := by
    rw [List.length_map]; exact hl1
  have hml2 : i2 < ((colour_class_order G n.remaining).map Prod.snd).length := by
    rw [List.length_map]; exact hl2
  have hrel := hsorted.rel_get_of_lt
    (a := ⟨i1, hml1⟩) (b := ⟨i2, hml2⟩) (by exact h12)
  rw [List.get_map, List.get_map] at hrel
  simp only [colourCl, GenNode.init]
  rw [List.getD_eq_get _ (0, 0) hl1, List.getD_eq_get _ (0, 0) hl2]
  exact hrel

/-- Claim C10: `colour_class_order` assigns non-decreasing colour numbers
along the order array, and consequently the children emitted by
successive `next()` calls of the maxclique `GenNode` have non-increasing
`upperBound` values (the generator walks the colour order backwards), so
the generator satisfies the monotone-bound precondition for PruneLevel. -/
theorem maxclique_bounds_antitone (G : Nat → Finset Nat) (p : Finset Nat)
    (n : MCNode) (j : Nat) (hj : j + 1 ≤ (GenNode.init G n).v) :
    List.Sorted (· ≤ ·) ((colour_class_order G p).map Prod.snd) ∧
    upperBound G ((nextIter G (j + 1) (GenNode.init G n)).1)
      ≤ upperBound G ((nextIter G j (GenNode.init G n)).1) := by
  refine ⟨colourOuter_sorted G 0 p, ?_⟩
  obtain ⟨ha1, ha2⟩ := nextIter_fst_fields G (j + 1) (GenNode.init G n) hj
  obtain ⟨hb1, hb2⟩ := nextIter_fst_fields G j (GenNode.init G n)
    (Nat.le_of_succ_le hj)
  unfold upperBound
  rw [ha1, ha2, hb1, hb2]
  have hv : (GenNode.init G n).v = n.remaining.card - 1 := rfl
  have hcard : 2 ≤ n.remaining.card := by omega
  have hmono : colourCl (GenNode.init G n) ((GenNode.init G n).v - (j + 1))
      ≤ colourCl (GenNode.init G n) ((GenNode.init G n).v - j) := by
    apply colourCl_mono G n _ _ (by omega) (by omega)
  omega

/-- Claim C10 witness: a concrete node with three candidate vertices where
the second emitted child's upper bound is at most the first's. -/
theorem maxclique_bounds_antitone_witness :
    List.Sorted (· ≤ ·)
      ((colour_class_order (fun _ => (∅ : Finset Nat)) {0, 1, 2}).map Prod.snd) ∧
    upperBound (fun _ => (∅ : Finset Nat))
        ((nextIter (fun _ => (∅ : Finset Nat)) 1
           (GenNode.init (fun _ => (∅ : Finset Nat))
             (MCNode.mk (MCSol.mk [] 0) 0 {0, 1, 2}))).1)
      ≤ upperBound (fun _ => (∅ : Finset Nat))
          ((nextIter (fun _ => (∅ : Finset Nat)) 0
             (GenNode.init (fun _ => (∅ : Finset Nat))
               (MCNode.mk (MCSol.mk [] 0) 0 {0, 1, 2}))).1) :=
  maxclique_bounds_antitone (fun _ => (∅ : Finset Nat)) {0, 1, 2}
    (MCNode.mk (MCSol.mk [] 0) 0 {0, 1, 2}) 0 (by decide)

end MaxClique

/-! ### The Random (BasicRandom) skeleton's expand loop

`Random::expand` runs a depth-first iterative expansion over a stack of
generator frames. Each frame is modelled by the list of its not-yet-seen
children (`seen < numChildren` becomes "pending nonempty"); the stack is
kept top-first, so frame index `i` of the source (counted from the bottom)
is the distance from the end of the list. The spawn block's random draw
`(rand()<<15)+rand()` is an oracle input `draws : Nat → Nat` indexed by
the loop iteration. The per-node processing (`ProcessNode`) is modelled
from the spec for the modes the claims quantify over (optimisation with
the null bound / plain enumeration): every child is processed and none is
pruned, which the trace records as a `visit` event. -/

namespace RandomSkel

structure RParams : Type where
  spawnProbability : Nat
  depthLimited : Bool
  maxDepth : Nat
deriving DecidableEq, Repr

inductive REvent : Type where
  | visit (t : MTree)
  | spawn (d : Nat) (t : MTree)
deriving DecidableEq, Repr

theorem tsize_pos (t : MTree) : 1 ≤ tsize t := by
  cases t with
  | node o cs => rw [tsize]; omega

theorem tsize_eq_children (t : MTree) : tsize t = 1 + tsizeL t.children := by
  cases t with
  | node o cs => rfl

theorem tsize_le_of_mem_children : ∀ (cs : List MTree), ∀ x ∈ cs, tsize x ≤ tsizeL cs := by
  intro cs
  induction cs with
  | nil => intro x hx; exact absurd hx (List.not_mem_nil _)
  | cons c cs ih =>
    intro x hx
    rw [tsizeL]
    rcases List.mem_cons.mp hx with rfl | hx2
    · omega
    · have := ih x hx2
      omega

/-- The spawn block's scan over the frames strictly below the current top
(`for (i = 0; i < stackDepth; ++i)` in the source): find the shallowest
frame that still has unseen children, create one task per unseen child of
that frame at child depth `cd + i + 1` (`i` counted from the bottom of
the stack), and mark them all seen. `fs` is top-first, so the scan
recurses to the bottom first; `fs.length` at the recursive step is the
bottom-based index of the frame at the head. -/
def spawnScanT (cd : Nat) : List (List MTree) → List (List MTree) × Option (List REvent)
  | [] => ([], none)
  | f :: fs =>
    match spawnScanT cd fs with
    | (fs2, some evs) => (f :: fs2, some evs)
    | (fs2, none) =>
      if f.isEmpty then (f :: fs2, none)
      else ([] :: fs2, some (f.map (fun c => REvent.spawn (cd + fs.length + 1) c)))

/-- One execution of the spawn block at the top of the expand loop: when
`spawnProbability` is nonzero and the draw falls below
`2^30 / spawnProbability` (integer division, `1073741824 = 2^30`), the
scan runs over the frames below the top. -/
def stepSpawn (sp : Nat) (draw : Nat) (cd : Nat) (below : List (List MTree)) :
    List (List MTree) × List REvent :=
  if sp ≠ 0 ∧ draw < 1073741824 / sp then
    ((spawnScanT cd below).1, ((spawnScanT cd below).2).getD [])
  else (below, [])

/-- Termination measure: twice the pending sizes plus the stack length. -/
def mstack : List (List MTree) → Nat
  | [] => 0
  | f :: fs => 2 * tsizeL f + 1 + mstack fs

theorem spawnScanT_length (cd : Nat) :
    ∀ fs, (spawnScanT cd fs).1.length = fs.length := by
  intro fs
  induction fs with
  | nil => rfl
  | cons f fs ih =>
    rw [spawnScanT]
    rcases h : spawnScanT cd fs with ⟨fs2, o⟩
    rw [h] at ih
    cases o with
    | some evs => simpa using ih
    | none =>
      by_cases hf : f.isEmpty
      · simp only [if_pos hf]
        simpa using ih
      · simp only [if_neg hf]
        simpa using ih

theorem spawnScanT_mstack_le (cd : Nat) :
    ∀ fs, mstack (spawnScanT cd fs).1 ≤ mstack fs := by
  intro fs
  induction fs with
  | nil => exact le_refl _
  | cons f fs ih =>
    rw [spawnScanT]
    rcases h : spawnScanT cd fs with ⟨fs2, o⟩
    rw [h] at ih
    dsimp only at ih
    cases o with
    | some evs =>
      simp only [mstack]
      omega
    | none =>
      by_cases hf : f.isEmpty
      · simp only [if_pos hf, mstack]
        omega
      · simp only [if_neg hf, mstack]
        simp only [tsizeL]
        omega

theorem stepSpawn_mstack_le (sp draw cd : Nat) (below : List (List MTree)) :
    mstack (stepSpawn sp draw cd below).1 ≤ mstack below := by
  unfold stepSpawn
  split
  · exact spawnScanT_mstack_le cd below
  · exact le_refl _

theorem stepSpawn_length (sp draw cd : Nat) (below : List (List MTree)) :
    (stepSpawn sp draw cd below).1.length = below.length := by
  unfold stepSpawn
  split
  · exact spawnScanT_length cd below
  · rfl

/-- The main loop of `Random::expand`. One iteration: run the spawn block
(consuming the iteration's draw), then either descend into the next child
of the top frame (processing it, and skipping the push when DepthLimited
and the child sits at `maxDepth`) or pop the exhausted frame.
`cd` is the task's `childDepth`; the node depth of the top frame's
pending children is `cd + stack.length`. -/
def runR (pr : RParams) (draws : Nat → Nat) (cd : Nat) :
    Nat → List (List MTree) → List REvent
  | _, [] => []
  | it, [] :: below =>
    (stepSpawn pr.spawnProbability (draws it) cd below).2 ++
      runR pr draws cd (it + 1) (stepSpawn pr.spawnProbability (draws it) cd below).1
  | it, (c :: cs) :: below =>
    if pr.depthLimited = true ∧ cd + (below.length + 1) = pr.maxDepth then
      (stepSpawn pr.spawnProbability (draws it) cd below).2 ++
        (REvent.visit c :: runR pr draws cd (it + 1)
          (cs :: (stepSpawn pr.spawnProbability (draws it) cd below).1))
    else
      (stepSpawn pr.spawnProbability (draws it) cd below).2 ++
        (REvent.visit c :: runR pr draws cd (it + 1)
          (c.children :: cs :: (stepSpawn pr.spawnProbability (draws it) cd below).1))
termination_by it stack => mstack stack
decreasing_by
  · have h1 := stepSpawn_mstack_le pr.spawnProbability (draws it) cd below
    simp only [mstack, tsizeL]
    omega
  · have h1 := stepSpawn_mstack_le pr.spawnProbability (draws it) cd below
    have h2 := tsize_pos c
    simp only [mstack, tsizeL]
    omega
  · have h1 := stepSpawn_mstack_le pr.spawnProbability (draws it) cd below
    have h2 := tsize_eq_children c
    simp only [mstack, tsizeL]
    omega

/-- `Random::expand` on a task root: the initial node is processed
(accumulated), then the loop runs on its single initial frame. -/
def expandR (pr : RParams) (draws : Nat → Nat) (cd : Nat) (t : MTree) : List REvent :=
  REvent.visit t :: runR pr draws cd 0 [t.children]

def spawnsOf (evs : List REvent) : List (Nat × MTree) :=
  evs.filterMap (fun e =>
    match e with
    | REvent.spawn d c => some (d, c)
    | _ => none)

def visitsOf (evs : List REvent) : Multiset MTree :=
  ((evs.filterMap (fun e =>
    match e with
    | REvent.visit t => some t
    | _ => none)) : List MTree)

theorem stepSpawn_zero (draw cd : Nat) (below : List (List MTree)) :
    stepSpawn 0 draw cd below = (below, []) := by
  unfold stepSpawn
  simp

theorem stepSpawn_no_trigger (sp draw cd : Nat) (below : List (List MTree))
    (hsp : sp ≠ 0) (hd : ¬ draw < 1073741824 / sp) :
    stepSpawn sp draw cd below = (below, []) := by
  unfold stepSpawn
  rw [if_neg]
  intro h
  exact hd h.2

theorem spawnsOf_append (a b : List REvent) :
    spawnsOf (a ++ b) = spawnsOf a ++ spawnsOf b := by
  unfold spawnsOf
  rw [List.filterMap_append]

theorem spawnsOf_visit_cons (t : MTree) (evs : List REvent) :
    spawnsOf (REvent.visit t :: evs) = spawnsOf evs := by
  unfold spawnsOf
  rfl

theorem runR_no_spawn_of_prob_zero (pr : RParams) (draws : Nat → Nat) (cd : Nat)
    (hz : pr.spawnProbability = 0) :
    ∀ (it : Nat) (stack : List (List MTree)),
      spawnsOf (runR pr draws cd it stack) = [] := by
  intro it stack
  induction it, stack using runR.induct pr draws cd with
  | case1 it => rw [runR]; rfl
  | case2 it below ih =>
    rw [runR]
    rw [hz] at ih ⊢
    rw [stepSpawn_zero]
    simpa [spawnsOf_append, spawnsOf] using ih
  | case3 it below c cs hcond ih =>
    rw [runR]
    simp only [if_pos hcond]
    rw [hz] at ih ⊢
    rw [stepSpawn_zero]
    simpa [spawnsOf_append, spawnsOf] using ih
  | case4 it below c cs hcond ih =>
    rw [runR]
    simp only [if_neg hcond]
    rw [hz] at ih ⊢
    rw [stepSpawn_zero]
    simpa [spawnsOf_append, spawnsOf] using ih

theorem spawnScanT_all_empty (cd : Nat) :
    ∀ below : List (List MTree), (∀ g ∈ below, g = []) →
      spawnScanT cd below = (below, none) := by
  intro below
  induction below with
  | nil => intro h; rfl
  | cons f fs ih =>
    intro h
    rw [spawnScanT]
    rw [ih (fun g hg => h g (List.mem_cons_of_mem _ hg))]
    have hf : f = [] := h f (List.mem_cons_self _ _)
    subst hf
    rfl

theorem spawnScanT_shallowest (cd : Nat) :
    ∀ (pre : List (List MTree)) (f : List MTree) (post : List (List MTree)),
      f ≠ [] → (∀ g ∈ post, g = []) →
      spawnScanT cd (pre ++ f :: post)
        = (pre ++ [] :: post,
           some (f.map (fun c => REvent.spawn (cd + post.length + 1) c))) := by
  intro pre
  induction pre with
  | nil =>
    intro f post hf hpost
    rw [List.nil_append, spawnScanT, spawnScanT_all_empty cd post hpost]
    have hfe : f.isEmpty = false := by
      cases f with
      | nil => exact absurd rfl hf
      | cons a as => rfl
    simp [hfe]
  | cons g pre ih =>
    intro f post hf hpost
    rw [List.cons_append, spawnScanT, ih f post hf hpost]
    simp

/-- Claim C5 counterexample: with `spawnProbability = 1` every draw passes
the spawn test (any draw is below `2^30 / 1`), and on the tree whose root
has one child the root frame always has an unseen child at the first
iteration, yet the run spawns no task at all — the spawn loop only scans
frames strictly below the current top (`i < stackDepth`), so the claimed
"shallowest stack frame that has unseen children" (here the only frame)
is never spawned from. -/
theorem random_spawn_claim_false :
    spawnsOf (expandR (RParams.mk 1 false 0) (fun _ => 0) 1
        (MTree.node 0 [MTree.node 1 []])) = [] ∧
    (0 : Nat) < 1073741824 / (1 : Nat) ∧
    (MTree.node 0 [MTree.node 1 []]).children = [MTree.node 1 []] := by
  refine ⟨?_, by decide, rfl⟩
  rw [expandR, spawnsOf_visit_cons]
  simp [runR, stepSpawn, spawnScanT, spawnsOf, MTree.children]

/-- Claim C5 amended: when `spawnProbability` is zero the spawn test never
fires and the run spawns nothing; when it is nonzero, an iteration whose
draw is not below `2^30 / spawnProbability` leaves the frames untouched
and spawns nothing, while a passing draw spawns from the shallowest frame
strictly below the current top of the stack that still has unseen
children — every remaining child of that frame, marked seen, each task at
child depth `childDepth + i + 1` for frame index `i`, touching no other
frame — and when no frame strictly below the top has unseen children the
triggered spawn block does nothing. -/
theorem random_spawn_behaviour :
    (∀ (pr : RParams) (draws : Nat → Nat) (cd it : Nat)
        (stack : List (List MTree)), pr.spawnProbability = 0 →
        spawnsOf (runR pr draws cd it stack) = []) ∧
    (∀ (sp draw cd : Nat) (below : List (List MTree)),
        sp ≠ 0 → ¬ draw < 1073741824 / sp →
        stepSpawn sp draw cd below = (below, [])) ∧
    (∀ (cd : Nat) (below : List (List MTree)),
        (∀ g ∈ below, g = []) → spawnScanT cd below = (below, none)) ∧
    (∀ (cd : Nat) (pre : List (List MTree)) (f : List MTree)
        (post : List (List MTree)), f ≠ [] → (∀ g ∈ post, g = []) →
        spawnScanT cd (pre ++ f :: post)
          = (pre ++ [] :: post,
             some (f.map (fun c => REvent.spawn (cd + post.length + 1) c)))) :=
  ⟨fun pr draws cd it stack hz => runR_no_spawn_of_prob_zero pr draws cd hz it stack,
   stepSpawn_no_trigger,
   spawnScanT_all_empty,
   fun cd pre f post hf hpost => spawnScanT_shallowest cd pre f post hf hpost⟩

/-- Claim C5 witness: concrete instances for each clause of the amended
spawn behaviour. -/
theorem random_spawn_behaviour_witness :
    spawnsOf (runR (RParams.mk 0 false 0) (fun _ => 0) 1 0
        [[MTree.node 5 []]]) = [] ∧
    stepSpawn 2 999999999 1 [[MTree.node 5 []]] = ([[MTree.node 5 []]], []) ∧
    spawnScanT 1 [[], []] = ([[], []], none) ∧
    spawnScanT 1 ([[]] ++ [MTree.node 5 []] :: [[]])
      = ([[]] ++ [] :: [[]],
         some [REvent.spawn 3 (MTree.node 5 [])]) :=
  ⟨random_spawn_behaviour.1 (RParams.mk 0 false 0) (fun _ => 0) 1 0
     [[MTree.node 5 []]] rfl,
   random_spawn_behaviour.2.1 2 999999999 1 [[MTree.node 5 []]]
     (by decide) (by decide),
   random_spawn_behaviour.2.2.1 1 [[], []] (by decide),
   random_spawn_behaviour.2.2.2 1 [[]] [MTree.node 5 []] [[]]
     (by decide) (by decide)⟩

/-! ### Exhaustiveness accounting for the Random skeleton

`evsW v` weighs a trace: a visited node counts as itself, a spawned node
counts as `v d c` (the multiset of nodes its task is responsible for at
child depth `d`). `stackW v D stack` weighs the pending children of every
frame, the top frame's pending nodes sitting at node depth `D`. -/

def evW (v : Nat → MTree → Multiset MTree) : REvent → Multiset MTree
  | REvent.visit t => {t}
  | REvent.spawn d c => v d c

def evsW (v : Nat → MTree → Multiset MTree) (evs : List REvent) : Multiset MTree :=
  (evs.map (evW v)).sum

def frameW (v : Nat → MTree → Multiset MTree) (d : Nat) (f : List MTree) :
    Multiset MTree :=
  (f.map (v d)).sum

def stackW (v : Nat → MTree → Multiset MTree) : Nat → List (List MTree) → Multiset MTree
  | _, [] => 0
  | d, f :: fs => frameW v d f + stackW v (d - 1) fs

theorem evsW_append (v : Nat → MTree → Multiset MTree) (a b : List REvent) :
    evsW v (a ++ b) = evsW v a + evsW v b := by
  unfold evsW
  rw [List.map_append, List.sum_append]

theorem evsW_cons (v : Nat → MTree → Multiset MTree) (e : REvent) (evs : List REvent) :
    evsW v (e :: evs) = evW v e + evsW v evs := by
  unfold evsW
  rw [List.map_cons, List.sum_cons]

theorem spawnScanT_weight (v : Nat → MTree → Multiset MTree) (cd : Nat) :
    ∀ fs : List (List MTree),
      stackW v (cd + fs.length) (spawnScanT cd fs).1
          + evsW v (((spawnScanT cd fs).2).getD [])
        = stackW v (cd + fs.length) fs := by
  intro fs
  induction fs with
  | nil =>
    simp [spawnScanT, stackW, evsW]
  | cons f fs ih =>
    rw [spawnScanT]
    rcases h : spawnScanT cd fs with ⟨fs2, o⟩
    rw [h] at ih
    dsimp only at ih
    cases o with
    | some evs =>
      dsimp only [Option.getD] at ih ⊢
      simp only [stackW, List.length_cons]
      have hd : cd + (fs.length + 1) - 1 = cd + fs.length := by omega
      rw [hd]
      rw [← ih]
      ac_rfl
    | none =>
      by_cases hf : f.isEmpty
      · simp only [if_pos hf]
        dsimp only [Option.getD] at ih ⊢
        simp only [stackW, List.length_cons]
        have hd : cd + (fs.length + 1) - 1 = cd + fs.length := by omega
        rw [hd]
        simp only [show evsW v ([] : List REvent) = 0 from rfl, add_zero] at ih ⊢
        rw [ih]
      · simp only [if_neg hf]
        dsimp only [Option.getD] at ih ⊢
        simp only [stackW, List.length_cons]
        have hd : cd + (fs.length + 1) - 1 = cd + fs.length := by omega
        rw [hd]
        simp only [show evsW v ([] : List REvent) = 0 from rfl, add_zero] at ih
        have hevs : evsW v (f.map (fun c => REvent.spawn (cd + fs.length + 1) c))
            = frameW v (cd + fs.length + 1) f := by
          unfold evsW frameW
          rw [List.map_map]
          rfl
        rw [hevs, ih]
        have hfw : frameW v (cd + (fs.length + 1)) ([] : List MTree) = 0 := rfl
        rw [hfw]
        have : cd + fs.length + 1 = cd + (fs.length + 1) := by omega
        rw [this]
        rw [zero_add, add_comm]

theorem stepSpawn_weight (v : Nat → MTree → Multiset MTree) (sp draw cd : Nat)
    (below : List (List MTree)) :
    stackW v (cd + below.length) (stepSpawn sp draw cd below).1
        + evsW v (stepSpawn sp draw cd below).2
      = stackW v (cd + below.length) below := by
  unfold stepSpawn
  split
  · exact spawnScanT_weight v cd below
  · simp [evsW]

theorem allNodesL_eq_map_sum : ∀ cs : List MTree,
    allNodesL cs = (cs.map allNodes).sum := by
  intro cs
  induction cs with
  | nil => rfl
  | cons c cs ih => rw [allNodesL, ih, List.map_cons, List.sum_cons]

theorem allNodes_eq (t : MTree) : allNodes t = t ::ₘ allNodesL t.children := by
  cases t with
  | node o cs => rfl

theorem nodesUpToL_eq_map_sum (d : Nat) : ∀ cs : List MTree,
    nodesUpToL d cs = (cs.map (nodesUpTo d)).sum := by
  intro cs
  induction cs with
  | nil => rfl
  | cons c cs ih => rw [nodesUpToL, ih, List.map_cons, List.sum_cons]

theorem nodesUpTo_succ (d : Nat) (t : MTree) :
    nodesUpTo (d + 1) t = t ::ₘ nodesUpToL d t.children := by
  cases t with
  | node o cs => rfl

theorem frameW_nil (v : Nat → MTree → Multiset MTree) (d : Nat) :
    frameW v d ([] : List MTree) = 0 := rfl

theorem frameW_cons (v : Nat → MTree → Multiset MTree) (d : Nat) (c : MTree)
    (cs : List MTree) : frameW v d (c :: cs) = v d c + frameW v d cs := by
  unfold frameW
  rw [List.map_cons, List.sum_cons]

/-- Partition invariant of one run without a depth limit: the weight of
the produced trace (visits as themselves, spawns as the full subtree of
the handed-off node) equals the weight of the initial stack. -/
theorem runR_partition_all (pr : RParams) (draws : Nat → Nat) (cd : Nat)
    (hdl : pr.depthLimited = false) :
    ∀ (it : Nat) (stack : List (List MTree)),
      evsW (fun _ t => allNodes t) (runR pr draws cd it stack)
        = stackW (fun _ t => allNodes t) (cd + stack.length) stack := by
  intro it stack
  induction it, stack using runR.induct pr draws cd with
  | case1 it => rw [runR]; rfl
  | case2 it below ih =>
    rw [runR, evsW_append, ih, stepSpawn_length]
    have hw := stepSpawn_weight (fun _ t => allNodes t)
      pr.spawnProbability (draws it) cd below
    simp only [stackW, List.length_cons, frameW_nil]
    have h2 : cd + (below.length + 1) - 1 = cd + below.length := by omega
    rw [h2, zero_add, ← hw]
    rw [add_comm]
  | case3 it c cs below hcond ih =>
    rw [hdl] at hcond
    exact absurd hcond.1 (by simp)
  | case4 it c cs below hcond ih =>
    rw [runR, if_neg hcond, evsW_append, evsW_cons, ih]
    simp only [List.length_cons]
    rw [stepSpawn_length]
    have hw := stepSpawn_weight (fun _ t => allNodes t)
      pr.spawnProbability (draws it) cd below
    simp only [stackW, frameW_cons, evW]
    have e1 : cd + (below.length + 1 + 1) - 1 = cd + (below.length + 1) := by omega
    have e2 : cd + (below.length + 1) - 1 = cd + below.length := by omega
    rw [e1, e2, ← hw]
    have hall : ({c} : Multiset MTree)
        + frameW (fun _ t => allNodes t) (cd + (below.length + 1 + 1)) c.children
        = allNodes c := by
      rw [allNodes_eq c, allNodesL_eq_map_sum]
      rfl
    rw [← hall]
    ac_rfl

/-- Partition invariant of one depth-limited run: provided the task's root
frame sits within the depth limit, the weight of the trace (visits as
themselves, spawns as the handed-off node's subtree truncated at the
limit) equals the truncated weight of the stack. -/
theorem runR_partition_dl (pr : RParams) (draws : Nat → Nat) (cd : Nat)
    (hdl : pr.depthLimited = true) :
    ∀ (it : Nat) (stack : List (List MTree)),
      cd + stack.length ≤ pr.maxDepth →
      evsW (fun d t => nodesUpTo (pr.maxDepth - d) t) (runR pr draws cd it stack)
        = stackW (fun d t => nodesUpTo (pr.maxDepth - d) t)
            (cd + stack.length) stack := by
  intro it stack
  induction it, stack using runR.induct pr draws cd with
  | case1 it =>
    intro hinv
    rw [runR]
    rfl
  | case2 it below ih =>
    intro hinv
    simp only [List.length_cons] at hinv
    have hinv2 : cd + (stepSpawn pr.spawnProbability (draws it) cd below).1.length
        ≤ pr.maxDepth := by
      rw [stepSpawn_length]
      omega
    rw [runR, evsW_append, ih hinv2]
    rw [stepSpawn_length]
    have hw := stepSpawn_weight (fun d t => nodesUpTo (pr.maxDepth - d) t)
      pr.spawnProbability (draws it) cd below
    simp only [stackW, List.length_cons, frameW_nil]
    have h2 : cd + (below.length + 1) - 1 = cd + below.length := by omega
    rw [h2, zero_add, ← hw]
    rw [add_comm]
  | case3 it c cs below hcond ih =>
    intro hinv
    simp only [List.length_cons] at hinv
    have hinv2 : cd + (cs :: (stepSpawn pr.spawnProbability (draws it) cd below).1).length
        ≤ pr.maxDepth := by
      simp only [List.length_cons]
      rw [stepSpawn_length]
      omega
    rw [runR, if_pos hcond, evsW_append, evsW_cons, ih hinv2]
    simp only [List.length_cons]
    rw [stepSpawn_length]
    have hw := stepSpawn_weight (fun d t => nodesUpTo (pr.maxDepth - d) t)
      pr.spawnProbability (draws it) cd below
    simp only [stackW, frameW_cons, evW]
    have e2 : cd + (below.length + 1) - 1 = cd + below.length := by omega
    rw [e2, ← hw]
    have hc0 : nodesUpTo (pr.maxDepth - (cd + (below.length + 1))) c
        = ({c} : Multiset MTree) := by
      rw [hcond.2]
      simp [nodesUpTo]
    rw [hc0]
    ac_rfl
  | case4 it c cs below hcond ih =>
    intro hinv
    simp only [List.length_cons] at hinv
    have hne : cd + (below.length + 1) ≠ pr.maxDepth := by
      intro he
      exact hcond ⟨hdl, he⟩
    have hlt : cd + (below.length + 1) < pr.maxDepth := by omega
    have hinv2 : cd + (c.children :: cs ::
        (stepSpawn pr.spawnProbability (draws it) cd below).1).length
        ≤ pr.maxDepth := by
      simp only [List.length_cons]
      rw [stepSpawn_length]
      omega
    rw [runR, if_neg hcond, evsW_append, evsW_cons, ih hinv2]
    simp only [List.length_cons]
    rw [stepSpawn_length]
    have hw := stepSpawn_weight (fun d t => nodesUpTo (pr.maxDepth - d) t)
      pr.spawnProbability (draws it) cd below
    simp only [stackW, frameW_cons, evW]
    have e1 : cd + (below.length + 1 + 1) - 1 = cd + (below.length + 1) := by omega
    have e2 : cd + (below.length + 1) - 1 = cd + below.length := by omega
    rw [e1, e2, ← hw]
    have hsucc : pr.maxDepth - (cd + (below.length + 1))
        = (pr.maxDepth - (cd + (below.length + 1 + 1))) + 1 := by omega
    have hall : nodesUpTo (pr.maxDepth - (cd + (below.length + 1))) c
        = ({c} : Multiset MTree)
          + frameW (fun d t => nodesUpTo (pr.maxDepth - d) t)
              (cd + (below.length + 1 + 1)) c.children := by
      rw [hsucc, nodesUpTo_succ, nodesUpToL_eq_map_sum]
      rfl
    rw [hall]
    ac_rfl

theorem visitsOf_visit_cons (t : MTree) (evs : List REvent) :
    visitsOf (REvent.visit t :: evs) = t ::ₘ visitsOf evs := rfl

theorem evsW_decomp (v : Nat → MTree → Multiset MTree) :
    ∀ evs : List REvent,
      evsW v evs
        = visitsOf evs + ((spawnsOf evs).map (fun x => v x.1 x.2)).sum := by
  intro evs
  induction evs with
  | nil => rfl
  | cons e evs ih =>
    cases e with
    | visit t =>
      rw [evsW_cons, ih, visitsOf_visit_cons]
      have hsp : spawnsOf (REvent.visit t :: evs) = spawnsOf evs := rfl
      rw [hsp]
      have hv : evW v (REvent.visit t) = ({t} : Multiset MTree) := rfl
      rw [hv]
      rw [← Multiset.singleton_add, add_assoc]
    | spawn d c =>
      rw [evsW_cons, ih]
      have hsp : spawnsOf (REvent.spawn d c :: evs) = (d, c) :: spawnsOf evs := rfl
      rw [hsp]
      have hvis : visitsOf (REvent.spawn d c :: evs) = visitsOf evs := rfl
      rw [hvis]
      have hv : evW v (REvent.spawn d c) = v d c := rfl
      rw [hv, List.map_cons, List.sum_cons]
      ac_rfl

theorem spawnsOf_map_spawn (D : Nat) :
    ∀ f : List MTree,
      spawnsOf (f.map (fun c => REvent.spawn D c)) = f.map (fun c => (D, c)) := by
  intro f
  induction f with
  | nil => rfl
  | cons c f ih =>
    rw [List.map_cons, List.map_cons]
    have : spawnsOf (REvent.spawn D c :: f.map (fun c => REvent.spawn D c))
        = (D, c) :: spawnsOf (f.map (fun c => REvent.spawn D c)) := rfl
    rw [this, ih]

theorem spawnScanT_spawn_origin (cd : Nat) :
    ∀ fs : List (List MTree),
      ∀ p ∈ spawnsOf (((spawnScanT cd fs).2).getD []),
        (∃ f ∈ fs, p.2 ∈ f) ∧ p.1 ≤ cd + fs.length := by
  intro fs
  induction fs with
  | nil => intro p hp; exact absurd hp (List.not_mem_nil _)
  | cons f fs ih =>
    intro p hp
    rw [spawnScanT] at hp
    rcases h : spawnScanT cd fs with ⟨fs2, o⟩
    rw [h] at hp ih
    cases o with
    | some evs =>
      dsimp only [Option.getD] at hp ih
      obtain ⟨⟨f2, hf2, hpf⟩, hd⟩ := ih p hp
      refine ⟨⟨f2, List.mem_cons_of_mem _ hf2, hpf⟩, ?_⟩
      simp only [List.length_cons]
      omega
    | none =>
      by_cases hf : f.isEmpty
      · simp only [if_pos hf] at hp
        exact absurd hp (List.not_mem_nil _)
      · simp only [if_neg hf] at hp
        dsimp only [Option.getD] at hp
        rw [spawnsOf_map_spawn] at hp
        obtain ⟨c, hc, hcp⟩ := List.mem_map.mp hp
        refine ⟨⟨f, List.mem_cons_self _ _, ?_⟩, ?_⟩
        · rw [← hcp]
          exact hc
        · rw [← hcp]
          simp only [List.length_cons]
          omega

theorem spawnScanT_frames_origin (cd : Nat) :
    ∀ fs : List (List MTree),
      ∀ g ∈ (spawnScanT cd fs).1, ∀ x ∈ g, ∃ f ∈ fs, x ∈ f := by
  intro fs
  induction fs with
  | nil => intro g hg; rw [spawnScanT] at hg; exact absurd hg (List.not_mem_nil _)
  | cons f fs ih =>
    intro g hg x hx
    rw [spawnScanT] at hg
    rcases h : spawnScanT cd fs with ⟨fs2, o⟩
    rw [h] at hg ih
    cases o with
    | some evs =>
      dsimp only at hg ih
      rcases List.mem_cons.mp hg with rfl | hg2
      · exact ⟨g, List.mem_cons_self _ _, hx⟩
      · obtain ⟨f2, hf2, hxf⟩ := ih g hg2 x hx
        exact ⟨f2, List.mem_cons_of_mem _ hf2, hxf⟩
    | none =>
      by_cases hfe : f.isEmpty
      · simp only [if_pos hfe] at hg
        rcases List.mem_cons.mp hg with rfl | hg2
        · exact ⟨g, List.mem_cons_self _ _, hx⟩
        · obtain ⟨f2, hf2, hxf⟩ := ih g hg2 x hx
          exact ⟨f2, List.mem_cons_of_mem _ hf2, hxf⟩
      · simp only [if_neg hfe] at hg
        rcases List.mem_cons.mp hg with rfl | hg2
        · exact absurd hx (List.not_mem_nil _)
        · obtain ⟨f2, hf2, hxf⟩ := ih g hg2 x hx
          exact ⟨f2, List.mem_cons_of_mem _ hf2, hxf⟩

theorem stepSpawn_spawn_origin (sp draw cd : Nat) (below : List (List MTree)) :
    ∀ p ∈ spawnsOf (stepSpawn sp draw cd below).2,
      (∃ f ∈ below, p.2 ∈ f) ∧ p.1 ≤ cd + below.length := by
  unfold stepSpawn
  split
  · exact spawnScanT_spawn_origin cd below
  · intro p hp
    exact absurd hp (List.not_mem_nil _)

theorem stepSpawn_frames_origin (sp draw cd : Nat) (below : List (List MTree)) :
    ∀ g ∈ (stepSpawn sp draw cd below).1, ∀ x ∈ g, ∃ f ∈ below, x ∈ f := by
  unfold stepSpawn
  split
  · exact spawnScanT_frames_origin cd below
  · intro g hg x hx
    exact ⟨g, hg, hx⟩

theorem runR_spawn_size (pr : RParams) (draws : Nat → Nat) (cd : Nat) :
    ∀ (it : Nat) (stack : List (List MTree)) (N : Nat),
      (∀ f ∈ stack, ∀ x ∈ f, tsize x ≤ N) →
      ∀ p ∈ spawnsOf (runR pr draws cd it stack), tsize p.2 ≤ N := by
  intro it stack
  induction it, stack using runR.induct pr draws cd with
  | case1 it => intro N hN p hp; rw [runR] at hp; exact absurd hp (List.not_mem_nil _)
  | case2 it below ih =>
    intro N hN p hp
    rw [runR, spawnsOf_append] at hp
    have hbelow : ∀ f ∈ below, ∀ x ∈ f, tsize x ≤ N :=
      fun f hf => hN f (List.mem_cons_of_mem _ hf)
    rcases List.mem_append.mp hp with hp | hp
    · obtain ⟨⟨f, hf, hpf⟩, _⟩ :=
        stepSpawn_spawn_origin pr.spawnProbability (draws it) cd below p hp
      exact hbelow f hf p.2 hpf
    · refine ih N ?_ p hp
      intro g hg x hx
      obtain ⟨f, hf, hxf⟩ :=
        stepSpawn_frames_origin pr.spawnProbability (draws it) cd below g hg x hx
      exact hbelow f hf x hxf
  | case3 it c cs below hcond ih =>
    intro N hN p hp
    rw [runR, if_pos hcond, spawnsOf_append, spawnsOf_visit_cons] at hp
    have hbelow : ∀ f ∈ below, ∀ x ∈ f, tsize x ≤ N :=
      fun f hf => hN f (List.mem_cons_of_mem _ hf)
    have htop : ∀ x ∈ c :: cs, tsize x ≤ N := hN _ (List.mem_cons_self _ _)
    rcases List.mem_append.mp hp with hp | hp
    · obtain ⟨⟨f, hf, hpf⟩, _⟩ :=
        stepSpawn_spawn_origin pr.spawnProbability (draws it) cd below p hp
      exact hbelow f hf p.2 hpf
    · refine ih N ?_ p hp
      intro g hg x hx
      rcases List.mem_cons.mp hg with rfl | hg2
      · exact htop x (List.mem_cons_of_mem _ hx)
      · obtain ⟨f, hf, hxf⟩ :=
          stepSpawn_frames_origin pr.spawnProbability (draws it) cd below g hg2 x hx
        exact hbelow f hf x hxf
  | case4 it c cs below hcond ih =>
    intro N hN p hp
    rw [runR, if_neg hcond, spawnsOf_append, spawnsOf_visit_cons] at hp
    have hbelow : ∀ f ∈ below, ∀ x ∈ f, tsize x ≤ N :=
      fun f hf => hN f (List.mem_cons_of_mem _ hf)
    have htop : ∀ x ∈ c :: cs, tsize x ≤ N := hN _ (List.mem_cons_self _ _)
    rcases List.mem_append.mp hp with hp | hp
    · obtain ⟨⟨f, hf, hpf⟩, _⟩ :=
        stepSpawn_spawn_origin pr.spawnProbability (draws it) cd below p hp
      exact hbelow f hf p.2 hpf
    · refine ih N ?_ p hp
      intro g hg x hx
      rcases List.mem_cons.mp hg with rfl | hg2
      · have h1 : tsize x ≤ tsizeL c.children := tsize_le_of_mem_children _ x hx
        have h2 : tsize c ≤ N := htop c (List.mem_cons_self _ _)
        have h3 := tsize_eq_children c
        omega
      · rcases List.mem_cons.mp hg2 with rfl | hg3
        · exact htop x (List.mem_cons_of_mem _ hx)
        · obtain ⟨f, hf, hxf⟩ :=
            stepSpawn_frames_origin pr.spawnProbability (draws it) cd below g hg3 x hx
          exact hbelow f hf x hxf

theorem runR_spawn_depth_dl (pr : RParams) (draws : Nat → Nat) (cd : Nat)
    (hdl : pr.depthLimited = true) :
    ∀ (it : Nat) (stack : List (List MTree)),
      cd + stack.length ≤ pr.maxDepth →
      ∀ p ∈ spawnsOf (runR pr draws cd it stack), p.1 < pr.maxDepth := by
  intro it stack
  induction it, stack using runR.induct pr draws cd with
  | case1 it => intro hinv p hp; rw [runR] at hp; exact absurd hp (List.not_mem_nil _)
  | case2 it below ih =>
    intro hinv p hp
    simp only [List.length_cons] at hinv
    rw [runR, spawnsOf_append] at hp
    rcases List.mem_append.mp hp with hp | hp
    · obtain ⟨_, hd⟩ :=
        stepSpawn_spawn_origin pr.spawnProbability (draws it) cd below p hp
      omega
    · refine ih ?_ p hp
      rw [stepSpawn_length]
      omega
  | case3 it c cs below hcond ih =>
    intro hinv p hp
    simp only [List.length_cons] at hinv
    rw [runR, if_pos hcond, spawnsOf_append, spawnsOf_visit_cons] at hp
    rcases List.mem_append.mp hp with hp | hp
    · obtain ⟨_, hd⟩ :=
        stepSpawn_spawn_origin pr.spawnProbability (draws it) cd below p hp
      omega
    · refine ih ?_ p hp
      simp only [List.length_cons]
      rw [stepSpawn_length]
      omega
  | case4 it c cs below hcond ih =>
    intro hinv p hp
    simp only [List.length_cons] at hinv
    have hne : cd + (below.length + 1) ≠ pr.maxDepth := by
      intro he
      exact hcond ⟨hdl, he⟩
    rw [runR, if_neg hcond, spawnsOf_append, spawnsOf_visit_cons] at hp
    rcases List.mem_append.mp hp with hp | hp
    · obtain ⟨_, hd⟩ :=
        stepSpawn_spawn_origin pr.spawnProbability (draws it) cd below p hp
      omega
    · refine ih ?_ p hp
      simp only [List.length_cons]
      rw [stepSpawn_length]
      omega

/-- Nodes visited across all tasks combined: the visits of this task's
own run plus, recursively, the visits of every task it spawned. Every
spawned task gets its own draw stream from the oracle, keyed by the spawn
path, so sub-task randomness is arbitrary and independent. -/
def totalVisits (pr : RParams) (oracle : List Nat → Nat → Nat) :
    List Nat → Nat → MTree → Multiset MTree
  | path, cd, t =>
    visitsOf (expandR pr (oracle path) cd t)
      + (((spawnsOf (expandR pr (oracle path) cd t)).enum.attach).map
          (fun x => totalVisits pr oracle (path ++ [x.1.1]) x.1.2.1 x.1.2.2)).sum
termination_by path cd t => tsize t
decreasing_by
  have hm : x.1.2 ∈ spawnsOf (runR pr (oracle path) cd 0 [t.children]) :=
    List.snd_mem_of_mem_enum x.2
  have hsz := runR_spawn_size pr (oracle path) cd 0 [t.children]
    (tsizeL t.children)
    (by
      intro f hf y hy
      rcases List.mem_cons.mp hf with rfl | hf2
      · exact tsize_le_of_mem_children _ y hy
      · exact absurd hf2 (List.not_mem_nil _))
    x.1.2 hm
  have h3 := tsize_eq_children t
  omega

/-- Claim C6: running the Random skeleton's search (optimisation with the
null bound, or plain enumeration — no pruning, which the embedding fixes)
on any finite tree visits every node exactly once across all tasks
combined: each child of every expanded node is either expanded locally or
handed to exactly one spawned task, never both and never twice. Without a
depth limit the combined visit multiset is exactly the tree's node
multiset; with DepthLimited set and the task rooted strictly above
`maxDepth` it is exactly the multiset of nodes down to `maxDepth` (the
root task runs at child depth 1). -/
theorem random_search_exhaustive (pr : RParams) (oracle : List Nat → Nat → Nat)
    (t : MTree) (path : List Nat) (cd : Nat) :
    (pr.depthLimited = false → totalVisits pr oracle path cd t = allNodes t) ∧
    (pr.depthLimited = true → cd < pr.maxDepth →
      totalVisits pr oracle path cd t = nodesUpTo (pr.maxDepth - cd) t) := by
  have H : ∀ (n : Nat) (t : MTree), tsize t ≤ n → ∀ (path : List Nat) (cd : Nat),
      (pr.depthLimited = false → totalVisits pr oracle path cd t = allNodes t) ∧
      (pr.depthLimited = true → cd < pr.maxDepth →
        totalVisits pr oracle path cd t = nodesUpTo (pr.maxDepth - cd) t) := by
    intro n
    induction n with
    | zero =>
      intro t ht
      have := tsize_pos t
      omega
    | succ n ihn =>
      intro t ht path cd
      have hsub : ∀ p ∈ spawnsOf (expandR pr (oracle path) cd t), tsize p.2 ≤ n := by
        intro p hp
        have hp2 : p ∈ spawnsOf (runR pr (oracle path) cd 0 [t.children]) := hp
        have hsz := runR_spawn_size pr (oracle path) cd 0 [t.children]
          (tsizeL t.children)
          (by
            intro f hf y hy
            rcases List.mem_cons.mp hf with rfl | hf2
            · exact tsize_le_of_mem_children _ y hy
            · exact absurd hf2 (List.not_mem_nil _))
          p hp2
        have h3 := tsize_eq_children t
        omega
      constructor
      · intro hdl
        rw [totalVisits]
        have hmc : (((spawnsOf (expandR pr (oracle path) cd t)).enum.attach).map
              (fun x => totalVisits pr oracle (path ++ [x.1.1]) x.1.2.1 x.1.2.2))
            = (((spawnsOf (expandR pr (oracle path) cd t)).enum.attach).map
              (fun x => allNodes x.1.2.2)) := by
          apply List.map_congr_left
          intro x hx
          have hm : x.1.2 ∈ spawnsOf (expandR pr (oracle path) cd t) :=
            List.snd_mem_of_mem_enum x.2
          exact (ihn x.1.2.2 (hsub x.1.2 hm) (path ++ [x.1.1]) x.1.2.1).1 hdl
        rw [hmc]
        have hat : ((spawnsOf (expandR pr (oracle path) cd t)).enum.attach.map
              (fun x => allNodes x.1.2.2))
            = ((spawnsOf (expandR pr (oracle path) cd t)).enum.map
              (fun y => allNodes y.2.2)) :=
          List.attach_map_val ((spawnsOf (expandR pr (oracle path) cd t)).enum)
            (fun y => allNodes y.2.2)
        rw [hat]
        have hmm : ((spawnsOf (expandR pr (oracle path) cd t)).enum.map
              (fun y => allNodes y.2.2))
            = ((spawnsOf (expandR pr (oracle path) cd t)).map
              (fun p => allNodes p.2)) := by
          have h1 : (fun (y : Nat × (Nat × MTree)) => allNodes y.2.2)
              = (fun p => allNodes p.2) ∘ Prod.snd := rfl
          rw [h1, ← List.map_map, List.enum_map_snd]
        rw [hmm]
        have hdec := evsW_decomp (fun _ t => allNodes t)
          (expandR pr (oracle path) cd t)
        simp only at hdec
        rw [← hdec]
        rw [expandR, evsW_cons]
        rw [runR_partition_all pr (oracle path) cd hdl 0 [t.children]]
        simp only [stackW, List.length_cons, List.length_nil, frameW_nil]
        have hev : evW (fun _ t => allNodes t) (REvent.visit t)
            = ({t} : Multiset MTree) := rfl
        rw [hev, add_zero]
        rw [allNodes_eq t, allNodesL_eq_map_sum, ← Multiset.singleton_add]
        rfl
      · intro hdl hcd
        rw [totalVisits]
        have hdep : ∀ p ∈ spawnsOf (expandR pr (oracle path) cd t),
            p.1 < pr.maxDepth := by
          intro p hp
          have hp2 : p ∈ spawnsOf (runR pr (oracle path) cd 0 [t.children]) := hp
          exact runR_spawn_depth_dl pr (oracle path) cd hdl 0 [t.children]
            (by simp only [List.length_cons, List.length_nil]; omega) p hp2
        have hmc : (((spawnsOf (expandR pr (oracle path) cd t)).enum.attach).map
              (fun x => totalVisits pr oracle (path ++ [x.1.1]) x.1.2.1 x.1.2.2))
            = (((spawnsOf (expandR pr (oracle path) cd t)).enum.attach).map
              (fun x => nodesUpTo (pr.maxDepth - x.1.2.1) x.1.2.2)) := by
          apply List.map_congr_left
          intro x hx
          have hm : x.1.2 ∈ spawnsOf (expandR pr (oracle path) cd t) :=
            List.snd_mem_of_mem_enum x.2
          exact (ihn x.1.2.2 (hsub x.1.2 hm) (path ++ [x.1.1]) x.1.2.1).2 hdl
            (hdep x.1.2 hm)
        rw [hmc]
        have hat : ((spawnsOf (expandR pr (oracle path) cd t)).enum.attach.map
              (fun x => nodesUpTo (pr.maxDepth - x.1.2.1) x.1.2.2))
            = ((spawnsOf (expandR pr (oracle path) cd t)).enum.map
              (fun y => nodesUpTo (pr.maxDepth - y.2.1) y.2.2)) :=
          List.attach_map_val ((spawnsOf (expandR pr (oracle path) cd t)).enum)
            (fun y => nodesUpTo (pr.maxDepth - y.2.1) y.2.2)
        rw [hat]
        have hmm : ((spawnsOf (expandR pr (oracle path) cd t)).enum.map
              (fun y => nodesUpTo (pr.maxDepth - y.2.1) y.2.2))
            = ((spawnsOf (expandR pr (oracle path) cd t)).map
              (fun p => nodesUpTo (pr.maxDepth - p.1) p.2)) := by
          have h1 : (fun (y : Nat × (Nat × MTree)) => nodesUpTo (pr.maxDepth - y.2.1) y.2.2)
              = (fun (p : Nat × MTree) => nodesUpTo (pr.maxDepth - p.1) p.2) ∘ Prod.snd := rfl
          rw [h1, ← List.map_map, List.enum_map_snd]
        rw [hmm]
        have hdec := evsW_decomp (fun d t => nodesUpTo (pr.maxDepth - d) t)
          (expandR pr (oracle path) cd t)
        simp only at hdec
        rw [← hdec]
        rw [expandR, evsW_cons]
        rw [runR_partition_dl pr (oracle path) cd hdl 0 [t.children]
          (by simp only [List.length_cons, List.length_nil]; omega)]
        simp only [stackW, List.length_cons, List.length_nil, frameW_nil]
        have hev : evW (fun d t => nodesUpTo (pr.maxDepth - d) t) (REvent.visit t)
            = ({t} : Multiset MTree) := rfl
        rw [hev, add_zero]
        have hsucc : pr.maxDepth - cd = (pr.maxDepth - (cd + (0 + 1))) + 1 := by omega
        rw [hsucc, nodesUpTo_succ, nodesUpToL_eq_map_sum, ← Multiset.singleton_add]
        rfl
  exact H (tsize t) t (le_refl _) path cd

/-- Claim C6 witness: concrete runs of both modes on a small tree. -/
theorem random_search_exhaustive_witness :
    totalVisits (RParams.mk 2 false 0) (fun _ _ => 0) [] 1
        (MTree.node 0 [MTree.node 1 [], MTree.node 2 [MTree.node 3 []]])
      = allNodes (MTree.node 0 [MTree.node 1 [], MTree.node 2 [MTree.node 3 []]]) ∧
    totalVisits (RParams.mk 2 true 2) (fun _ _ => 0) [] 1
        (MTree.node 0 [MTree.node 1 [], MTree.node 2 [MTree.node 3 []]])
      = nodesUpTo (2 - 1)
          (MTree.node 0 [MTree.node 1 [], MTree.node 2 [MTree.node 3 []]]) :=
  ⟨(random_search_exhaustive (RParams.mk 2 false 0) (fun _ _ => 0)
      (MTree.node 0 [MTree.node 1 [], MTree.node 2 [MTree.node 3 []]]) [] 1).1 rfl,
   (random_search_exhaustive (RParams.mk 2 true 2) (fun _ _ => 0)
      (MTree.node 0 [MTree.node 1 [], MTree.node 2 [MTree.node 3 []]]) [] 1).2
      rfl (by decide)⟩

end RandomSkel

end YewParVerif
